import Mathlib

/-!
Verification of `mypy/literals.py`: the expression classifier `literal`,
the key builder `literal_hash` (the `_Hasher` visitor), `subkeys` and
`extract_var_from_literal_hash`.

The Python AST node classes from `mypy.nodes` are embedded as the inductive
type `Expr` below; Python tuples used as Keys become lists of `KElem`;
Python `None` results become `Option.none`.  Python scalar values that can
appear inside a Key (ints, floats, complex numbers, strings, bools) are
embedded as `PyVal`, with Python `==` semantics given by `pyEq` (numeric
values of different kinds compare equal when numerically equal, exactly as
in CPython, which is what makes `3` and `3.0` produce equal Keys).
-/

namespace MypyLiterals

/-- A Python scalar value that can appear inside a literal hash Key.
`IntExpr.value` is an `int`, `FloatExpr.value` a float (modelled as an
exact rational, which is faithful for the stored literal values),
`ComplexExpr.value` a complex number, `StrExpr.value` and
`BytesExpr.value` are both Python `str` in mypy, and `Var.final_value`
may additionally be a `bool`. -/
inductive PyVal where
  | int (n : Int)
  | float (q : Rat)
  | complex (re im : Rat)
  | str (s : String)
  | bool (b : Bool)
deriving DecidableEq

/-- The numeric content of a Python scalar, if it is numeric: Python
treats `bool` as `0`/`1` and identifies `int`, `float` and `complex`
values that are numerically equal. -/
def PyVal.toC : PyVal → Option (Rat × Rat)
  | .int n => some ((n : Rat), 0)
  | .bool b => some (if b then (1 : Rat) else 0, 0)
  | .float q => some (q, 0)
  | .complex re im => some (re, im)
  | .str _ => none

/-- Python `==` on scalar values: strings compare as strings, numeric
values compare by numeric value across kinds, and a string never equals
a number. -/
def pyEq (a b : PyVal) : Bool :=
  match a, b with
  | .str s, .str t => s == t
  | a, b =>
    match a.toC, b.toC with
    | some x, some y => decide (x = y)
    | _, _ => false

/-- A resolved symbol node (`e.node` of a `NameExpr`): either a `Var`
(with its `is_final` flag and optional `final_value`) or some other
`SymbolNode`.  The `id` models Python object identity: distinct AST
objects carry distinct ids. -/
inductive SymNode where
  | var (id : Nat) (isFinal : Bool) (finalValue : Option PyVal)
  | other (id : Nat)
deriving DecidableEq

/-- The expression variants whose `_Hasher` visitor method unconditionally
returns `None`: calls, slices, casts, conditionals, comprehensions, etc.
(lines 225-304 of `literals.py`). -/
inductive OtherKind where
  | callE
  | sliceE
  | castE
  | assertTypeE
  | conditionalE
  | ellipsisE
  | yieldFromE
  | yieldE
  | revealE
  | superE
  | typeApplicationE
  | lambdaE
  | listComprehensionE
  | setComprehensionE
  | dictionaryComprehensionE
  | generatorE
  | typeVarE
  | paramSpecE
  | typeVarTupleE
  | typeAliasE
  | namedTupleE
  | enumCallE
  | typedDictE
  | newTypeE
  | promoteE
  | awaitE
  | tempNodeE
deriving DecidableEq

/-- The mypy expression AST, restricted to the structure `literals.py`
inspects.  `comparisonE` carries the operator strings and the operand
list (the parser guarantees `operands.length = operators.length + 1`,
so `operands` is nonempty in any parser-produced tree); `dictE` items
are `(key?, value)` pairs where a `none` key is a `**`-spread entry. -/
inductive Expr where
  | intE (v : Int)
  | strE (v : String)
  | bytesE (v : String)
  | floatE (v : Rat)
  | complexE (re im : Rat)
  | starE (e : Expr)
  | nameE (node : Option SymNode)
  | memberE (e : Expr) (name : String)
  | opE (op : String) (left right : Expr)
  | comparisonE (operators : List String) (operands : List Expr)
  | unaryE (op : String) (e : Expr)
  | listE (items : List Expr)
  | tupleE (items : List Expr)
  | setE (items : List Expr)
  | dictE (items : List (Option Expr × Expr))
  | indexE (base index : Expr)
  | assignE (target value : Expr)
  | otherE (kind : OtherKind)

/-- An element of a literal-hash Key: a scalar value (this also covers the
tag strings such as `"Literal"`, `"Var"`, `"Binary"`, operator symbols and
member names, which in Python are ordinary strings inside the tuple), a
symbol node embedded by identity, Python `None`, or a nested Key. -/
inductive KElem where
  | v (x : PyVal)
  | node (n : Option SymNode)
  | knone
  | sub (k : List KElem)

/-- `Key: _TypeAlias = Tuple[Any, ...]` — a Python tuple, embedded as a
list of elements. -/
abbrev Key := List KElem

/-- A string element of a Key (a tag, operator symbol or member name). -/
def kstr (s : String) : KElem := .v (.str s)

/-- Embed an optional child hash into a Key slot, exactly as Python embeds
the child's `literal_hash` result (a tuple or `None`) into the tuple. -/
def keyElemOf : Option Key → KElem
  | some k => .sub k
  | none => .knone

/-- Modelled from the spec: the classification constant `LITERAL_NO` from
`mypy.nodes` (not under `src/`); the spec fixes the ordering
`No < Unknown-but-stable < Yes`. -/
def LITERAL_NO : Nat := 0

/-- Modelled from the spec: the classification constant `LITERAL_TYPE`
(the "Unknown-but-stable" / type-based verdict) from `mypy.nodes`. -/
def LITERAL_TYPE : Nat := 1

/-- Modelled from the spec: the classification constant `LITERAL_YES`
(proven compile-time constant) from `mypy.nodes`. -/
def LITERAL_YES : Nat := 2

/-- Python truthiness of an optional Key: `None` is falsy and a tuple is
truthy iff it is nonempty (`literal` tests `if literal_hash(e):`). -/
def keyTruthy : Option Key → Bool
  | none => false
  | some k => !k.isEmpty

/-- The guard `isinstance(e.node, Var) and e.node.is_final and
e.node.final_value is not None`, returning the final value when it holds. -/
def nodeFinalValue : Option SymNode → Option PyVal
  | some (.var _ true (some v)) => some v
  | _ => none

mutual

/-- `literal` from `literals.py` (lines 99-129): the three-valued
classifier.  The list/tuple/set/dict and unhandled cases fall through to
the truthiness test `if literal_hash(e):`.  For a `ComparisonExpr`,
Python computes `min(literal(o) for o in e.operands)` over the (always
nonempty) operand list; `literalMin` computes the same value, using
`LITERAL_YES` as the fold base, which agrees with Python's `min` on every
nonempty list because every classification is at most `LITERAL_YES`. -/
def literal : Expr → Nat
  | .comparisonE _ operands => literalMin operands
  | .opE _ l r => min (literal l) (literal r)
  | .memberE e _ => literal e
  | .unaryE _ e => literal e
  | .starE e => literal e
  | .assignE t _ => literal t
  | .indexE b i => if literal i = LITERAL_YES then literal b else LITERAL_NO
  | .nameE n => if (nodeFinalValue n).isSome then LITERAL_YES else LITERAL_TYPE
  | .intE _ => LITERAL_YES
  | .floatE _ => LITERAL_YES
  | .complexE _ _ => LITERAL_YES
  | .strE _ => LITERAL_YES
  | .bytesE _ => LITERAL_YES
  | .listE items => if keyTruthy (literal_hash (.listE items)) then LITERAL_YES else LITERAL_NO
  | .tupleE items => if keyTruthy (literal_hash (.tupleE items)) then LITERAL_YES else LITERAL_NO
  | .setE items => if keyTruthy (literal_hash (.setE items)) then LITERAL_YES else LITERAL_NO
  | .dictE items => if keyTruthy (literal_hash (.dictE items)) then LITERAL_YES else LITERAL_NO
  | .otherE k => if keyTruthy (literal_hash (.otherE k)) then LITERAL_YES else LITERAL_NO
termination_by e => (sizeOf e, 1)

/-- `min(literal(o) for o in operands)`, with base `LITERAL_YES` (see
`literal`). -/
def literalMin : List Expr → Nat
  | [] => LITERAL_YES
  | x :: xs => min (literal x) (literalMin xs)
termination_by l => (sizeOf l, 1)

/-- `all(literal(x) == LITERAL_YES for x in e.items)` from `seq_expr`. -/
def allYes : List Expr → Bool
  | [] => true
  | x :: xs => (literal x == LITERAL_YES) && allYes xs
termination_by l => (sizeOf l, 1)

/-- `tuple(literal_hash(x) for x in items)`: the child hashes, each
embedded as a Key element (used by `seq_expr` and by the comparison
visitor for its operand hashes). -/
def hashItems : List Expr → List KElem
  | [] => []
  | x :: xs => keyElemOf (literal_hash x) :: hashItems xs
termination_by l => (sizeOf l, 1)

/-- `_Hasher.seq_expr` (lines 194-198). -/
def seq_expr (items : List Expr) (name : String) : Option Key :=
  if allYes items then some (kstr name :: hashItems items) else none
termination_by (sizeOf items, 2)

/-- The guard `all(a and literal(a) == literal(b) == LITERAL_YES
for a, b in e.items)` of `visit_dict_expr`: a spread entry (`a is None`)
makes it `False`. -/
def dictGuard : List (Option Expr × Expr) → Bool
  | [] => true
  | (some a, b) :: ps => (literal a == literal b) && (literal b == LITERAL_YES) && dictGuard ps
  | (none, _) :: _ => false
termination_by l => (sizeOf l, 1)

/-- `tuple((literal_hash(a) if a else None, literal_hash(b)) for a, b in
e.items)`: each entry is a nested two-element tuple. -/
def dictItems : List (Option Expr × Expr) → List KElem
  | [] => []
  | (some a, b) :: ps =>
    KElem.sub [keyElemOf (literal_hash a), keyElemOf (literal_hash b)] :: dictItems ps
  | (none, b) :: ps =>
    KElem.sub [KElem.knone, keyElemOf (literal_hash b)] :: dictItems ps
termination_by l => (sizeOf l, 1)

/-- `literal_hash` (line 139) composed with the `_Hasher` visitor dispatch
(lines 153-304): each case is the corresponding `visit_*` method. -/
def literal_hash : Expr → Option Key
  | .intE v => some [kstr "Literal", .v (.int v)]
  | .strE s => some [kstr "Literal", .v (.str s)]
  | .bytesE s => some [kstr "Literal", .v (.str s)]
  | .floatE q => some [kstr "Literal", .v (.float q)]
  | .complexE re im => some [kstr "Literal", .v (.complex re im)]
  | .starE e => some [kstr "Star", keyElemOf (literal_hash e)]
  | .nameE n =>
    match nodeFinalValue n with
    | some v => some [kstr "Literal", .v v]
    | none => some [kstr "Var", .node n]
  | .memberE e name => some [kstr "Member", keyElemOf (literal_hash e), .v (.str name)]
  | .opE op l r =>
    some [kstr "Binary", .v (.str op), keyElemOf (literal_hash l), keyElemOf (literal_hash r)]
  | .comparisonE operators operands =>
    some (kstr "Comparison" :: (operators.map (fun o => KElem.v (.str o)) ++ hashItems operands))
  | .unaryE op e => some [kstr "Unary", .v (.str op), keyElemOf (literal_hash e)]
  | .listE items => seq_expr items "List"
  | .tupleE items => seq_expr items "Tuple"
  | .setE items => seq_expr items "Set"
  | .dictE items => if dictGuard items then some (kstr "Dict" :: dictItems items) else none
  | .indexE b i =>
    if literal i = LITERAL_YES then
      some [kstr "Index", keyElemOf (literal_hash b), keyElemOf (literal_hash i)]
    else none
  | .assignE t _ => literal_hash t
  | .otherE _ => none
termination_by e => (sizeOf e, 0)

end

/-- `subkeys` (lines 135-136): the elements of a Key that are tuples. -/
def subkeys (key : Key) : List Key :=
  key.filterMap (fun e => match e with | .sub k => some k | _ => none)

/-- `extract_var_from_literal_hash` (lines 143-150): a two-element key
whose first element equals the string `"Var"` and whose second element is
a `Var` node yields that node. -/
def extract_var_from_literal_hash (key : Key) : Option SymNode :=
  match key with
  | [.v (.str s), .node (some (.var i f v))] =>
    if s = "Var" then some (.var i f v) else none
  | _ => none

/-- Structural induction principle for `Expr`, with membership hypotheses
for the nested lists (the auto-generated recursor of this nested inductive
is not usable by the `induction` tactic). -/
def exprInd {motive : Expr → Prop}
    (hint : ∀ v, motive (.intE v))
    (hstr : ∀ v, motive (.strE v))
    (hbytes : ∀ v, motive (.bytesE v))
    (hfloat : ∀ v, motive (.floatE v))
    (hcomplex : ∀ re im, motive (.complexE re im))
    (hstar : ∀ e, motive e → motive (.starE e))
    (hname : ∀ n, motive (.nameE n))
    (hmember : ∀ e name, motive e → motive (.memberE e name))
    (hop : ∀ op l r, motive l → motive r → motive (.opE op l r))
    (hcomparison : ∀ ops operands, (∀ x ∈ operands, motive x) → motive (.comparisonE ops operands))
    (hunary : ∀ op e, motive e → motive (.unaryE op e))
    (hlist : ∀ items, (∀ x ∈ items, motive x) → motive (.listE items))
    (htuple : ∀ items, (∀ x ∈ items, motive x) → motive (.tupleE items))
    (hset : ∀ items, (∀ x ∈ items, motive x) → motive (.setE items))
    (hdict : ∀ items, (∀ p ∈ items, ∀ a, p.1 = some a → motive a) →
      (∀ p ∈ items, motive p.2) → motive (.dictE items))
    (hindex : ∀ b i, motive b → motive i → motive (.indexE b i))
    (hassign : ∀ t v, motive t → motive v → motive (.assignE t v))
    (hother : ∀ k, motive (.otherE k)) :
    ∀ e, motive e := fun e =>
  match e with
  | .intE v => hint v
  | .strE v => hstr v
  | .bytesE v => hbytes v
  | .floatE v => hfloat v
  | .complexE re im => hcomplex re im
  | .starE e => hstar e (exprInd hint hstr hbytes hfloat hcomplex hstar hname hmember hop
      hcomparison hunary hlist htuple hset hdict hindex hassign hother e)
  | .nameE n => hname n
  | .memberE e name => hmember e name (exprInd hint hstr hbytes hfloat hcomplex hstar hname
      hmember hop hcomparison hunary hlist htuple hset hdict hindex hassign hother e)
  | .opE op l r => hop op l r
      (exprInd hint hstr hbytes hfloat hcomplex hstar hname hmember hop hcomparison hunary
        hlist htuple hset hdict hindex hassign hother l)
      (exprInd hint hstr hbytes hfloat hcomplex hstar hname hmember hop hcomparison hunary
        hlist htuple hset hdict hindex hassign hother r)
  | .comparisonE ops operands => hcomparison ops operands (fun x hx =>
      have : sizeOf x < sizeOf operands := List.sizeOf_lt_of_mem hx
      exprInd hint hstr hbytes hfloat hcomplex hstar hname hmember hop hcomparison hunary
        hlist htuple hset hdict hindex hassign hother x)
  | .unaryE op e => hunary op e (exprInd hint hstr hbytes hfloat hcomplex hstar hname hmember
      hop hcomparison hunary hlist htuple hset hdict hindex hassign hother e)
  | .listE items => hlist items (fun x hx =>
      have : sizeOf x < sizeOf items := List.sizeOf_lt_of_mem hx
      exprInd hint hstr hbytes hfloat hcomplex hstar hname hmember hop hcomparison hunary
        hlist htuple hset hdict hindex hassign hother x)
  | .tupleE items => htuple items (fun x hx =>
      have : sizeOf x < sizeOf items := List.sizeOf_lt_of_mem hx
      exprInd hint hstr hbytes hfloat hcomplex hstar hname hmember hop hcomparison hunary
        hlist htuple hset hdict hindex hassign hother x)
  | .setE items => hset items (fun x hx =>
      have : sizeOf x < sizeOf items := List.sizeOf_lt_of_mem hx
      exprInd hint hstr hbytes hfloat hcomplex hstar hname hmember hop hcomparison hunary
        hlist htuple hset hdict hindex hassign hother x)
  | .dictE items => hdict items
      (fun p hp a ha =>
        have h1 : sizeOf p < sizeOf items := List.sizeOf_lt_of_mem hp
        have h2 : sizeOf a < sizeOf p := by
          rcases p with ⟨p1, p2⟩
          cases ha
          simp only [Prod.mk.sizeOf_spec, Option.some.sizeOf_spec]
          omega
        exprInd hint hstr hbytes hfloat hcomplex hstar hname hmember hop hcomparison hunary
          hlist htuple hset hdict hindex hassign hother a)
      (fun p hp =>
        have h1 : sizeOf p < sizeOf items := List.sizeOf_lt_of_mem hp
        have h2 : sizeOf p.2 < sizeOf p := by
          rcases p with ⟨p1, p2⟩
          simp only [Prod.mk.sizeOf_spec]
          omega
        exprInd hint hstr hbytes hfloat hcomplex hstar hname hmember hop hcomparison hunary
          hlist htuple hset hdict hindex hassign hother p.2)
  | .indexE b i => hindex b i
      (exprInd hint hstr hbytes hfloat hcomplex hstar hname hmember hop hcomparison hunary
        hlist htuple hset hdict hindex hassign hother b)
      (exprInd hint hstr hbytes hfloat hcomplex hstar hname hmember hop hcomparison hunary
        hlist htuple hset hdict hindex hassign hother i)
  | .assignE t v => hassign t v
      (exprInd hint hstr hbytes hfloat hcomplex hstar hname hmember hop hcomparison hunary
        hlist htuple hset hdict hindex hassign hother t)
      (exprInd hint hstr hbytes hfloat hcomplex hstar hname hmember hop hcomparison hunary
        hlist htuple hset hdict hindex hassign hother v)
  | .otherE k => hother k
termination_by e => sizeOf e
decreasing_by all_goals (simp_wf <;> omega)


theorem literalMin_nil : literalMin [] = LITERAL_YES := by
  simp [literalMin]

theorem literalMin_cons (x : Expr) (xs : List Expr) :
    literalMin (x :: xs) = min (literal x) (literalMin xs) := by
  simp only [literalMin]

theorem literalMin_le (l : List Expr) : literalMin l ≤ LITERAL_YES := by
  induction l with
  | nil => simp [literalMin]
  | cons x xs ih =>
    rw [literalMin_cons]
    exact le_trans (Nat.min_le_right _ _) ih

theorem literalMin_le_mem (l : List Expr) (x : Expr) (hx : x ∈ l) :
    literalMin l ≤ literal x := by
  induction l with
  | nil => cases hx
  | cons a as ih =>
    rcases List.mem_cons.mp hx with h | h
    · subst h; rw [literalMin_cons]; exact Nat.min_le_left _ _
    · rw [literalMin_cons]; exact le_trans (Nat.min_le_right _ _) (ih h)

theorem allYes_eq (l : List Expr) : allYes l = l.all (fun x => literal x == LITERAL_YES) := by
  induction l with
  | nil => simp [allYes]
  | cons x xs ih => simp [allYes, ih]

theorem hashItems_eq (l : List Expr) :
    hashItems l = l.map (fun x => keyElemOf (literal_hash x)) := by
  induction l with
  | nil => simp [hashItems]
  | cons x xs ih => simp [hashItems, ih]

theorem hash_ne_nil : ∀ e k, literal_hash e = some k → k ≠ [] := by
  intro e
  induction e using exprInd with
  | hassign t v iht _ =>
    intro k hk
    exact iht k (by simpa [literal_hash] using hk)
  | hlist items _ =>
    intro k hk
    simp only [literal_hash, seq_expr] at hk
    split at hk
    · injection hk with hk; subst hk; simp
    · exact absurd hk (by simp)
  | htuple items _ =>
    intro k hk
    simp only [literal_hash, seq_expr] at hk
    split at hk
    · injection hk with hk; subst hk; simp
    · exact absurd hk (by simp)
  | hset items _ =>
    intro k hk
    simp only [literal_hash, seq_expr] at hk
    split at hk
    · injection hk with hk; subst hk; simp
    · exact absurd hk (by simp)
  | hdict items _ _ =>
    intro k hk
    simp only [literal_hash] at hk
    split at hk
    · injection hk with hk; subst hk; simp
    · exact absurd hk (by simp)
  | hname n =>
    intro k hk
    simp only [literal_hash] at hk
    rcases h : nodeFinalValue n with _ | v <;> rw [h] at hk <;>
      (injection hk with hk; subst hk; simp)
  | hindex b i _ _ =>
    intro k hk
    simp only [literal_hash] at hk
    split at hk
    · injection hk with hk; subst hk; simp
    · exact absurd hk (by simp)
  | hother kk =>
    intro k hk
    simp [literal_hash] at hk
  | hint v => intro k hk; simp only [literal_hash] at hk; injection hk with hk; subst hk; simp
  | hstr v => intro k hk; simp only [literal_hash] at hk; injection hk with hk; subst hk; simp
  | hbytes v => intro k hk; simp only [literal_hash] at hk; injection hk with hk; subst hk; simp
  | hfloat v => intro k hk; simp only [literal_hash] at hk; injection hk with hk; subst hk; simp
  | hcomplex re im =>
    intro k hk; simp only [literal_hash] at hk; injection hk with hk; subst hk; simp
  | hstar e _ => intro k hk; simp only [literal_hash] at hk; injection hk with hk; subst hk; simp
  | hmember e name _ =>
    intro k hk; simp only [literal_hash] at hk; injection hk with hk; subst hk; simp
  | hop op l r _ _ =>
    intro k hk; simp only [literal_hash] at hk; injection hk with hk; subst hk; simp
  | hcomparison ops operands _ =>
    intro k hk; simp only [literal_hash] at hk; injection hk with hk; subst hk; simp
  | hunary op e _ =>
    intro k hk; simp only [literal_hash] at hk; injection hk with hk; subst hk; simp

theorem keyTruthy_eq_isSome (e : Expr) :
    keyTruthy (literal_hash e) = (literal_hash e).isSome := by
  rcases h : literal_hash e with _ | k
  · simp [keyTruthy]
  · have := hash_ne_nil e k h
    simp [keyTruthy, List.isEmpty_iff, this]

theorem literal_listE (items : List Expr) :
    literal (.listE items) = if allYes items then LITERAL_YES else LITERAL_NO := by
  simp only [literal, literal_hash, seq_expr]
  split
  · simp [keyTruthy]
  · simp [keyTruthy]

theorem literal_tupleE (items : List Expr) :
    literal (.tupleE items) = if allYes items then LITERAL_YES else LITERAL_NO := by
  simp only [literal, literal_hash, seq_expr]
  split
  · simp [keyTruthy]
  · simp [keyTruthy]

theorem literal_setE (items : List Expr) :
    literal (.setE items) = if allYes items then LITERAL_YES else LITERAL_NO := by
  simp only [literal, literal_hash, seq_expr]
  split
  · simp [keyTruthy]
  · simp [keyTruthy]

theorem literal_dictE (items : List (Option Expr × Expr)) :
    literal (.dictE items) = if dictGuard items then LITERAL_YES else LITERAL_NO := by
  simp only [literal, literal_hash]
  split
  · simp [keyTruthy]
  · simp [keyTruthy]

theorem literal_otherE (k : OtherKind) : literal (.otherE k) = LITERAL_NO := by
  simp [literal, literal_hash, keyTruthy]

theorem literal_le (e : Expr) : literal e ≤ LITERAL_YES := by
  induction e using exprInd with
  | hcomparison ops operands _ => simpa [literal] using literalMin_le operands
  | hop op l r ihl _ =>
    simp only [literal]
    exact le_trans (Nat.min_le_left _ _) ihl
  | hmember e name ih => simpa [literal] using ih
  | hunary op e ih => simpa [literal] using ih
  | hstar e ih => simpa [literal] using ih
  | hassign t v iht _ => simpa [literal] using iht
  | hindex b i ihb _ =>
    simp only [literal]
    split
    · exact ihb
    · simp [LITERAL_NO, LITERAL_YES]
  | hname n =>
    simp only [literal]
    split <;> simp [LITERAL_TYPE, LITERAL_YES]
  | hlist items _ => rw [literal_listE]; split <;> simp [LITERAL_NO, LITERAL_YES]
  | htuple items _ => rw [literal_tupleE]; split <;> simp [LITERAL_NO, LITERAL_YES]
  | hset items _ => rw [literal_setE]; split <;> simp [LITERAL_NO, LITERAL_YES]
  | hdict items _ _ => rw [literal_dictE]; split <;> simp [LITERAL_NO, LITERAL_YES]
  | hother k => simp [literal_otherE, LITERAL_NO, LITERAL_YES]
  | _ => simp [literal]

theorem literalMin_attained (l : List Expr) (hne : l ≠ []) :
    ∃ x ∈ l, literalMin l = literal x := by
  induction l with
  | nil => exact absurd rfl hne
  | cons a as ih =>
    rcases Nat.le_total (literal a) (literalMin as) with h | h
    · exact ⟨a, by simp, by rw [literalMin_cons]; omega⟩
    · cases as with
      | nil =>
        have h2 := literal_le a
        refine ⟨a, by simp, ?_⟩
        rw [literalMin_cons, literalMin_nil]
        simp only [LITERAL_YES] at *
        rw [literalMin_nil] at h
        simp only [LITERAL_YES] at h
        omega
      | cons b bs =>
        rcases ih (by simp) with ⟨x, hx, hmin⟩
        rw [hmin] at h
        exact ⟨x, by simp [hx], by rw [literalMin_cons, hmin]; omega⟩

theorem yes_hash_isSome : ∀ e, literal e = LITERAL_YES → (literal_hash e).isSome := by
  intro e
  induction e using exprInd with
  | hassign t v iht _ =>
    intro h
    simp only [literal] at h
    simpa [literal_hash] using iht h
  | hindex b i _ _ =>
    intro h
    simp only [literal] at h
    simp only [literal_hash]
    split at h
    · simp_all
    · simp [LITERAL_NO, LITERAL_YES] at h
  | hlist items _ =>
    intro h
    by_cases hyes : allYes items = true
    · simp [literal_hash, seq_expr, hyes]
    · rw [literal_listE, if_neg hyes] at h; simp [LITERAL_NO, LITERAL_YES] at h
  | htuple items _ =>
    intro h
    by_cases hyes : allYes items = true
    · simp [literal_hash, seq_expr, hyes]
    · rw [literal_tupleE, if_neg hyes] at h; simp [LITERAL_NO, LITERAL_YES] at h
  | hset items _ =>
    intro h
    by_cases hyes : allYes items = true
    · simp [literal_hash, seq_expr, hyes]
    · rw [literal_setE, if_neg hyes] at h; simp [LITERAL_NO, LITERAL_YES] at h
  | hdict items _ _ =>
    intro h
    by_cases hyes : dictGuard items = true
    · simp [literal_hash, hyes]
    · rw [literal_dictE, if_neg hyes] at h; simp [LITERAL_NO, LITERAL_YES] at h
  | hother k =>
    intro h
    rw [literal_otherE] at h
    simp [LITERAL_NO, LITERAL_YES] at h
  | hname n =>
    intro _
    simp only [literal_hash]
    rcases h : nodeFinalValue n with _ | v <;> simp [h]
  | hint v => intro _; simp [literal_hash]
  | hstr v => intro _; simp [literal_hash]
  | hbytes v => intro _; simp [literal_hash]
  | hfloat v => intro _; simp [literal_hash]
  | hcomplex re im => intro _; simp [literal_hash]
  | hstar e _ => intro _; simp [literal_hash]
  | hmember e name _ => intro _; simp [literal_hash]
  | hop op l r _ _ => intro _; simp [literal_hash]
  | hcomparison ops operands _ => intro _; simp [literal_hash]
  | hunary op e _ => intro _; simp [literal_hash]



theorem allYes_iff (l : List Expr) :
    allYes l = true ↔ ∀ x ∈ l, literal x = LITERAL_YES := by
  rw [allYes_eq, List.all_eq_true]
  simp

theorem dictGuard_iff (l : List (Option Expr × Expr)) :
    dictGuard l = true ↔
      ∀ p ∈ l, ∃ a, p.1 = some a ∧ literal a = LITERAL_YES ∧ literal p.2 = LITERAL_YES := by
  induction l with
  | nil => simp [dictGuard]
  | cons p ps ih =>
    rcases p with ⟨a | a, b⟩
    · simp [dictGuard]
    · simp only [dictGuard, Bool.and_eq_true, beq_iff_eq, List.mem_cons]
      constructor
      · rintro ⟨⟨h1, h2⟩, h3⟩
        intro q hq
        rcases hq with rfl | hq
        · exact ⟨a, rfl, h1.trans h2, h2⟩
        · exact ih.mp h3 q hq
      · intro h
        rcases h (some a, b) (Or.inl rfl) with ⟨a2, ha2, hya, hyb⟩
        simp only [Option.some.injEq] at ha2
        subst ha2
        exact ⟨⟨hya.trans hyb.symm, hyb⟩, ih.mpr (fun q hq => h q (Or.inr hq))⟩

theorem dictItems_eq (l : List (Option Expr × Expr)) :
    dictItems l = l.map (fun p =>
      KElem.sub [(match p.1 with
                  | some a => keyElemOf (literal_hash a)
                  | none => KElem.knone), keyElemOf (literal_hash p.2)]) := by
  induction l with
  | nil => simp [dictItems]
  | cons p ps ih =>
    rcases p with ⟨a | a, b⟩ <;> simp [dictItems, ih]

/-- Claim C4: for an index expression `base[idx]`, if `idx` classifies as
`LITERAL_YES` then the hash is the `Index` Key built from the two child
hashes and the classification equals that of the base; otherwise the hash
is absent and the classification is `LITERAL_NO`. -/
theorem index_gating (base idx : Expr) :
    (literal idx = LITERAL_YES →
      literal_hash (.indexE base idx) =
        some [kstr "Index", keyElemOf (literal_hash base), keyElemOf (literal_hash idx)] ∧
      literal (.indexE base idx) = literal base) ∧
    (literal idx ≠ LITERAL_YES →
      literal_hash (.indexE base idx) = none ∧ literal (.indexE base idx) = LITERAL_NO) := by
  constructor
  · intro h
    exact ⟨by simp [literal_hash, h], by simp [literal, h]⟩
  · intro h
    exact ⟨by simp [literal_hash, h], by simp [literal, h]⟩

/-- Witness for C4 at a constant index and at a call index. -/
theorem index_gating_witness :
    literal_hash (.indexE (.nameE (some (.var 0 false none))) (.intE 0)) =
      some [kstr "Index", keyElemOf (literal_hash (.nameE (some (.var 0 false none)))),
        keyElemOf (literal_hash (.intE 0))] ∧
    literal_hash (.indexE (.nameE (some (.var 0 false none))) (.otherE .callE)) = none := by
  constructor
  · exact ((index_gating _ _).1 (by simp [literal])).1
  · refine ((index_gating _ _).2 ?_).1
    rw [literal_otherE]
    simp [LITERAL_NO, LITERAL_YES]

/-- Claim C5: a list, tuple or set literal hashes to the tag followed by
the element hashes, in order, iff every element classifies as
`LITERAL_YES`; one non-`Yes` element forces an absent hash. -/
theorem collection_gating (items : List Expr) :
    ((∀ x ∈ items, literal x = LITERAL_YES) →
      literal_hash (.listE items) =
        some (kstr "List" :: items.map (fun x => keyElemOf (literal_hash x))) ∧
      literal_hash (.tupleE items) =
        some (kstr "Tuple" :: items.map (fun x => keyElemOf (literal_hash x))) ∧
      literal_hash (.setE items) =
        some (kstr "Set" :: items.map (fun x => keyElemOf (literal_hash x)))) ∧
    ((∃ x ∈ items, literal x ≠ LITERAL_YES) →
      literal_hash (.listE items) = none ∧
      literal_hash (.tupleE items) = none ∧
      literal_hash (.setE items) = none) ∧
    ((literal_hash (.listE items)).isSome ↔ ∀ x ∈ items, literal x = LITERAL_YES) := by
  refine ⟨?_, ?_, ?_⟩
  · intro h
    have hy : allYes items = true := (allYes_iff items).mpr h
    refine ⟨?_, ?_, ?_⟩ <;> simp [literal_hash, seq_expr, hy, hashItems_eq]
  · intro h
    have hy : allYes items ≠ true := by
      intro hc
      rcases h with ⟨x, hx, hne⟩
      exact hne ((allYes_iff items).mp hc x hx)
    refine ⟨?_, ?_, ?_⟩ <;> simp [literal_hash, seq_expr, hy]
  · constructor
    · intro h
      by_cases hy : allYes items = true
      · exact (allYes_iff items).mp hy
      · simp [literal_hash, seq_expr, hy] at h
    · intro h
      have hy : allYes items = true := (allYes_iff items).mpr h
      simp [literal_hash, seq_expr, hy]

/-- Witness for C5 at `[1, 2]` (all constants) and `[1, f()]`. -/
theorem collection_gating_witness :
    literal_hash (.listE [.intE 1, .intE 2]) =
      some (kstr "List" :: [Expr.intE 1, Expr.intE 2].map (fun x => keyElemOf (literal_hash x))) ∧
    literal_hash (.listE [.intE 1, .otherE .callE]) = none := by
  constructor
  · refine (((collection_gating _).1 ?_)).1
    intro x hx
    simp only [List.mem_cons, List.not_mem_nil, or_false] at hx
    rcases hx with rfl | rfl <;> simp [literal]
  · refine (((collection_gating _).2.1 ⟨.otherE .callE, by simp, ?_⟩)).1
    rw [literal_otherE]
    simp [LITERAL_NO, LITERAL_YES]

/-- Claim C6: a dict literal hashes to the `Dict` tag followed by the
ordered (key hash, value hash) pairs iff every entry has an explicit key
and both key and value classify as `LITERAL_YES`; a spread entry (no
explicit key) forces an absent hash. -/
theorem mapping_gating (items : List (Option Expr × Expr)) :
    ((∀ p ∈ items, ∃ a, p.1 = some a ∧ literal a = LITERAL_YES ∧ literal p.2 = LITERAL_YES) →
      literal_hash (.dictE items) =
        some (kstr "Dict" :: items.map (fun p =>
          KElem.sub [(match p.1 with
                      | some a => keyElemOf (literal_hash a)
                      | none => KElem.knone), keyElemOf (literal_hash p.2)]))) ∧
    ((literal_hash (.dictE items)).isSome ↔
      ∀ p ∈ items, ∃ a, p.1 = some a ∧ literal a = LITERAL_YES ∧ literal p.2 = LITERAL_YES) ∧
    ((∃ p ∈ items, p.1 = none) → literal_hash (.dictE items) = none) := by
  refine ⟨?_, ⟨?_, ?_⟩, ?_⟩
  · intro h
    have hg : dictGuard items = true := (dictGuard_iff items).mpr h
    simp [literal_hash, hg, dictItems_eq]
  · intro h
    by_cases hg : dictGuard items = true
    · exact (dictGuard_iff items).mp hg
    · simp [literal_hash, hg] at h
  · intro h
    have hg : dictGuard items = true := (dictGuard_iff items).mpr h
    simp [literal_hash, hg]
  · rintro ⟨p, hp, hnone⟩
    have hg : dictGuard items ≠ true := by
      intro hc
      rcases (dictGuard_iff items).mp hc p hp with ⟨a, ha, -, -⟩
      rw [hnone] at ha
      cases ha
    simp [literal_hash, hg]

/-- Witness for C6 at `{1: 2}` and at a dict with a spread entry. -/
theorem mapping_gating_witness :
    literal_hash (.dictE [(some (.intE 1), .intE 2)]) =
      some (kstr "Dict" :: [((some (Expr.intE 1) : Option Expr), Expr.intE 2)].map (fun p =>
        KElem.sub [(match p.1 with
                    | some a => keyElemOf (literal_hash a)
                    | none => KElem.knone), keyElemOf (literal_hash p.2)])) ∧
    literal_hash (.dictE [(none, .intE 2)]) = none := by
  constructor
  · exact (mapping_gating _).1 (by
      intro p hp
      simp at hp
      subst hp
      exact ⟨.intE 1, rfl, by simp [literal], by simp [literal]⟩)
  · exact (mapping_gating _).2.2 ⟨(none, .intE 2), by simp, rfl⟩

/-- Claim C7: the classification of a comparison chain is the minimum of
its operands' classifications (ordering `LITERAL_NO < LITERAL_TYPE <
LITERAL_YES`), the classification of a binary operation is the minimum of
its two operands' classifications, and a chain containing a
`LITERAL_NO` operand classifies as `LITERAL_NO`. -/
theorem classification_min :
    (∀ (ops : List String) (operands : List Expr), operands ≠ [] →
      (∀ x ∈ operands, literal (.comparisonE ops operands) ≤ literal x) ∧
      (∃ x ∈ operands, literal (.comparisonE ops operands) = literal x)) ∧
    (∀ (o : String) (l r : Expr), literal (.opE o l r) = min (literal l) (literal r)) ∧
    (∀ (ops : List String) (operands : List Expr),
      (∃ x ∈ operands, literal x = LITERAL_NO) →
        literal (.comparisonE ops operands) = LITERAL_NO) := by
  refine ⟨?_, ?_, ?_⟩
  · intro ops operands hne
    constructor
    · intro x hx
      simpa [literal] using literalMin_le_mem operands x hx
    · simpa [literal] using literalMin_attained operands hne
  · intro o l r
    simp [literal]
  · rintro ops operands ⟨x, hx, h0⟩
    have h := literalMin_le_mem operands x hx
    rw [h0] at h
    simp only [literal]
    simp only [LITERAL_NO] at *
    omega

/-- Witness for C7 at the chain `1 < f()` (a constant and a call). -/
theorem classification_min_witness :
    (∀ x ∈ [Expr.intE 1, Expr.otherE .callE],
      literal (.comparisonE ["<"] [Expr.intE 1, Expr.otherE .callE]) ≤ literal x) ∧
    literal (.comparisonE ["<"] [Expr.intE 1, Expr.otherE .callE]) = LITERAL_NO := by
  constructor
  · exact (classification_min.1 ["<"] _ (by simp)).1
  · exact classification_min.2.2 ["<"] _ ⟨.otherE .callE, by simp, literal_otherE _⟩

/-- Claim C9: `literal` and `literal_hash` are total functions (the Lean
definitions are accepted as terminating on every finite tree);
`literal` only takes the three classification values, and every
unhandled expression shape classifies `LITERAL_NO` with an absent hash. -/
theorem totality :
    (∀ e, literal e = LITERAL_NO ∨ literal e = LITERAL_TYPE ∨ literal e = LITERAL_YES) ∧
    (∀ k, literal (.otherE k) = LITERAL_NO ∧ literal_hash (.otherE k) = none) := by
  constructor
  · intro e
    have h := literal_le e
    simp only [LITERAL_NO, LITERAL_TYPE, LITERAL_YES] at *
    omega
  · intro k
    exact ⟨literal_otherE k, by simp [literal_hash]⟩

/-- The scalar literal expression denoting a given Python value, when one
exists (used to state C10; `bool` constants have no dedicated literal
expression node in mypy). -/
def litExprOf : PyVal → Option Expr
  | .int n => some (.intE n)
  | .float q => some (.floatE q)
  | .complex re im => some (.complexE re im)
  | .str s => some (.strE s)
  | .bool _ => none

/-- Claim C10: a name reference resolved to a final `Var` with recorded
constant value `v` hashes to `("Literal", v)` — the very Key of the scalar
literal expression for `v` — and classifies `LITERAL_YES`. -/
theorem final_var_hash (i : Nat) (v : PyVal) (e' : Expr) (h : litExprOf v = some e') :
    literal_hash (.nameE (some (.var i true (some v)))) = some [kstr "Literal", .v v] ∧
    literal_hash e' = some [kstr "Literal", .v v] ∧
    literal (.nameE (some (.var i true (some v)))) = LITERAL_YES := by
  refine ⟨?_, ?_, ?_⟩
  · simp [literal_hash, nodeFinalValue]
  · cases v <;> simp only [litExprOf, Option.some.injEq] at h <;>
      first
        | (subst h; simp [literal_hash])
        | cases h
  · simp [literal, nodeFinalValue]

/-- Witness for C10: a final variable with value `3` and the literal `3`
produce the same Key. -/
theorem final_var_hash_witness :
    literal_hash (.nameE (some (.var 0 true (some (.int 3))))) =
      some [kstr "Literal", .v (.int 3)] ∧
    literal_hash (.intE 3) = some [kstr "Literal", .v (.int 3)] := by
  have h := final_var_hash 0 (.int 3) (.intE 3) rfl
  exact ⟨h.1, h.2.1⟩



/-- A name reference to a plain (non-final, valueless) variable with the
given identity. -/
def plainVarE (i : Nat) : Expr := .nameE (some (.var i false none))


theorem literal_memberE (e : Expr) (m : String) : literal (.memberE e m) = literal e := by
  simp only [literal]

theorem literal_indexE (b i : Expr) :
    literal (.indexE b i) = if literal i = LITERAL_YES then literal b else LITERAL_NO := by
  simp only [literal]

theorem hash_indexE (b i : Expr) :
    literal_hash (.indexE b i) =
      if literal i = LITERAL_YES then
        some [kstr "Index", keyElemOf (literal_hash b), keyElemOf (literal_hash i)]
      else none := by
  simp only [literal_hash]

theorem hash_memberE (e : Expr) (m : String) :
    literal_hash (.memberE e m) =
      some [kstr "Member", keyElemOf (literal_hash e), .v (.str m)] := by
  simp only [literal_hash]

/-- Counterexample to C2: the child `f()` hashes to absent, yet the binary
expression `f() + f()` hashes to a present Key with the absent marker
embedded in the operand slots — absence does not propagate. -/
theorem absent_propagation_cex :
    literal_hash (.otherE .callE) = none ∧
    literal_hash (.opE "+" (.otherE .callE) (.otherE .callE)) =
      some [kstr "Binary", .v (.str "+"), .knone, .knone] := by
  constructor
  · simp [literal_hash]
  · simp [literal_hash, keyElemOf]

/-- Amended C2: binary-operator, member, unary, comparison and star
expressions always hash to a present Key that embeds each child's
(possibly absent) hash in the child slot; absence is never propagated for
these five shapes.  (Absence does gate index expressions and collection
literals, as proved for C4-C6.) -/
theorem absent_nonpropagation :
    (∀ (o : String) (l r : Expr), literal_hash (.opE o l r) =
      some [kstr "Binary", .v (.str o), keyElemOf (literal_hash l), keyElemOf (literal_hash r)]) ∧
    (∀ (e : Expr) (m : String), literal_hash (.memberE e m) =
      some [kstr "Member", keyElemOf (literal_hash e), .v (.str m)]) ∧
    (∀ (o : String) (e : Expr), literal_hash (.unaryE o e) =
      some [kstr "Unary", .v (.str o), keyElemOf (literal_hash e)]) ∧
    (∀ (ops : List String) (operands : List Expr), literal_hash (.comparisonE ops operands) =
      some (kstr "Comparison" :: (ops.map (fun s => KElem.v (.str s)) ++
        operands.map (fun x => keyElemOf (literal_hash x))))) ∧
    (∀ (e : Expr), literal_hash (.starE e) = some [kstr "Star", keyElemOf (literal_hash e)]) := by
  refine ⟨?_, ?_, ?_, ?_, ?_⟩
  · intro o l r; simp [literal_hash]
  · intro e m; simp [literal_hash]
  · intro o e; simp [literal_hash]
  · intro ops operands; simp [literal_hash, hashItems_eq]
  · intro e; simp [literal_hash]

/-- Counterexample to C3: for `x[(i, j+1)].m` with `x`, `i`, `j` plain
variables, `literal` returns `LITERAL_NO` (not `LITERAL_TYPE`, the
claimed "Unknown-but-stable"), and the hash is the `Member` Key with the
absent marker in the base slot, not the claimed fully nested Key. -/
theorem scenario_member_index_cex :
    literal (.memberE (.indexE (plainVarE 0)
        (.tupleE [plainVarE 1, .opE "+" (plainVarE 2) (.intE 1)])) "m") = LITERAL_NO ∧
    LITERAL_NO ≠ LITERAL_TYPE ∧
    literal_hash (.memberE (.indexE (plainVarE 0)
        (.tupleE [plainVarE 1, .opE "+" (plainVarE 2) (.intE 1)])) "m") =
      some [kstr "Member", KElem.knone, .v (.str "m")] := by
  have htuple : literal (.tupleE [plainVarE 1, .opE "+" (plainVarE 2) (.intE 1)]) =
      LITERAL_NO := by
    rw [literal_tupleE]
    have : allYes [plainVarE 1, .opE "+" (plainVarE 2) (.intE 1)] = false := by
      simp [allYes, literal, plainVarE, nodeFinalValue, LITERAL_TYPE, LITERAL_YES]
    simp [this]
  refine ⟨?_, ?_, ?_⟩
  · rw [literal_memberE, literal_indexE, htuple]
    simp [LITERAL_NO, LITERAL_YES]
  · simp [LITERAL_NO, LITERAL_TYPE]
  · rw [hash_memberE, hash_indexE, htuple]
    simp [LITERAL_NO, LITERAL_YES, keyElemOf]

/-- Amended C3: for `x[(i, j+1)].m` with plain variables `x`, `i`, `j`
(any identities), the classification is `LITERAL_NO` — the tuple index
contains non-constant operands, so the index gate fails — and the hash is
`("Member", absent, "m")`: a present Key embedding the absent index-slot. -/
theorem scenario_member_index_amended (a b c : Nat) :
    literal (.memberE (.indexE (plainVarE a)
        (.tupleE [plainVarE b, .opE "+" (plainVarE c) (.intE 1)])) "m") = LITERAL_NO ∧
    literal_hash (.memberE (.indexE (plainVarE a)
        (.tupleE [plainVarE b, .opE "+" (plainVarE c) (.intE 1)])) "m") =
      some [kstr "Member", KElem.knone, .v (.str "m")] := by
  have htuple : literal (.tupleE [plainVarE b, .opE "+" (plainVarE c) (.intE 1)]) =
      LITERAL_NO := by
    rw [literal_tupleE]
    have : allYes [plainVarE b, .opE "+" (plainVarE c) (.intE 1)] = false := by
      simp [allYes, literal, plainVarE, nodeFinalValue, LITERAL_TYPE, LITERAL_YES]
    simp [this]
  constructor
  · rw [literal_memberE, literal_indexE, htuple]
    simp [LITERAL_NO, LITERAL_YES]
  · rw [hash_memberE, hash_indexE, htuple]
    simp [LITERAL_NO, LITERAL_YES, keyElemOf]

/-- Counterexample to C8: a bare variable reference whose `Var` is final
with recorded value `5` produces the Key `("Literal", 5)`, from which
`extract_var_from_literal_hash` recovers no variable at all. -/
theorem extract_var_cex :
    literal_hash (.nameE (some (.var 0 true (some (.int 5))))) =
      some [kstr "Literal", .v (.int 5)] ∧
    extract_var_from_literal_hash [kstr "Literal", .v (.int 5)] = none := by
  constructor
  · simp [literal_hash, nodeFinalValue]
  · rfl

/-- The expressions whose hash is a `("Var", node)` Key: a bare reference
to a plain (non-final-constant) variable, possibly wrapped in walrus
assignments (whose hash delegates to the target). -/
inductive VarRefChain : Expr → SymNode → Prop where
  | name : ∀ i f v, nodeFinalValue (some (.var i f v)) = none →
      VarRefChain (.nameE (some (.var i f v))) (.var i f v)
  | assign : ∀ t val n, VarRefChain t n → VarRefChain (.assignE t val) n

theorem extract_ne_var_tag (s : String) (hs : s ≠ "Var") (rest : Key) :
    extract_var_from_literal_hash (kstr s :: rest) = none := by
  rcases rest with _ | ⟨x, rest2⟩
  · rfl
  rcases rest2 with _ | ⟨y, rest3⟩
  · rcases x with v | n | _ | k
    · rfl
    · rcases n with _ | n
      · rfl
      · rcases n with ⟨i, f, fv⟩ | i
        · simp [extract_var_from_literal_hash, kstr, hs]
        · rfl
    · rfl
    · rfl
  · rcases x with v | n | _ | k
    · rfl
    · rcases n with _ | n
      · rfl
      · rcases n with ⟨i, f, fv⟩ | i
        · rfl
        · rfl
    · rfl
    · rfl



theorem hash_nameE (n : Option SymNode) :
    literal_hash (.nameE n) =
      match nodeFinalValue n with
      | some v => some [kstr "Literal", .v v]
      | none => some [kstr "Var", .node n] := by
  simp only [literal_hash]

/-- Amended C8: `extract_var_from_literal_hash` recovers the `Var` exactly
from Keys of the form `("Var", v)`.  A bare reference to a plain
(non-final-constant) `Var` produces such a Key and gets its identity back;
a reference to a final variable with a recorded constant value produces a
`Literal` Key, from which no variable is recovered; and any expression
whose Key extracts to a variable is a plain variable reference, possibly
wrapped in walrus assignments (whose hash delegates to the target). -/
theorem extract_var_amended :
    (∀ (i : Nat) (f : Bool) (fv : Option PyVal),
      nodeFinalValue (some (.var i f fv)) = none →
      literal_hash (.nameE (some (.var i f fv))) =
        some [kstr "Var", .node (some (.var i f fv))] ∧
      extract_var_from_literal_hash [kstr "Var", .node (some (.var i f fv))] =
        some (.var i f fv)) ∧
    (∀ (i : Nat) (v : PyVal),
      literal_hash (.nameE (some (.var i true (some v)))) = some [kstr "Literal", .v v] ∧
      extract_var_from_literal_hash [kstr "Literal", .v v] = none) ∧
    (∀ e k n, literal_hash e = some k → extract_var_from_literal_hash k = some n →
      VarRefChain e n) := by
  refine ⟨?_, ?_, ?_⟩
  · intro i f fv h
    constructor
    · rw [hash_nameE, h]
    · simp [extract_var_from_literal_hash, kstr]
  · intro i v
    constructor
    · rw [hash_nameE]
      simp [nodeFinalValue]
    · exact extract_ne_var_tag "Literal" (by decide) _
  · intro e
    induction e using exprInd with
    | hname n =>
      intro k nn hk hx
      rw [hash_nameE] at hk
      rcases hfv : nodeFinalValue n with _ | v
      · rw [hfv] at hk
        injection hk with hk
        subst hk
        rcases n with _ | n
        · simp [extract_var_from_literal_hash, kstr] at hx
        · rcases n with ⟨i, f, fv⟩ | i
          · simp [kstr, extract_var_from_literal_hash] at hx
            subst hx
            exact VarRefChain.name i f fv hfv
          · simp [extract_var_from_literal_hash, kstr] at hx
      · rw [hfv] at hk
        injection hk with hk
        subst hk
        rw [extract_ne_var_tag "Literal" (by decide)] at hx
        cases hx
    | hassign t val iht _ =>
      intro k nn hk hx
      have hk2 : literal_hash t = some k := by simpa [literal_hash] using hk
      exact VarRefChain.assign t val nn (iht k nn hk2 hx)
    | hother kk =>
      intro k nn hk hx
      simp [literal_hash] at hk
    | hint v =>
      intro k nn hk hx
      simp only [literal_hash] at hk
      injection hk with hk
      subst hk
      rw [extract_ne_var_tag "Literal" (by decide)] at hx
      cases hx
    | hstr v =>
      intro k nn hk hx
      simp only [literal_hash] at hk
      injection hk with hk
      subst hk
      rw [extract_ne_var_tag "Literal" (by decide)] at hx
      cases hx
    | hbytes v =>
      intro k nn hk hx
      simp only [literal_hash] at hk
      injection hk with hk
      subst hk
      rw [extract_ne_var_tag "Literal" (by decide)] at hx
      cases hx
    | hfloat v =>
      intro k nn hk hx
      simp only [literal_hash] at hk
      injection hk with hk
      subst hk
      rw [extract_ne_var_tag "Literal" (by decide)] at hx
      cases hx
    | hcomplex re im =>
      intro k nn hk hx
      simp only [literal_hash] at hk
      injection hk with hk
      subst hk
      rw [extract_ne_var_tag "Literal" (by decide)] at hx
      cases hx
    | hstar e _ =>
      intro k nn hk hx
      simp only [literal_hash] at hk
      injection hk with hk
      subst hk
      rw [extract_ne_var_tag "Star" (by decide)] at hx
      cases hx
    | hmember e m _ =>
      intro k nn hk hx
      simp only [literal_hash] at hk
      injection hk with hk
      subst hk
      rw [extract_ne_var_tag "Member" (by decide)] at hx
      cases hx
    | hop o l r _ _ =>
      intro k nn hk hx
      simp only [literal_hash] at hk
      injection hk with hk
      subst hk
      rw [extract_ne_var_tag "Binary" (by decide)] at hx
      cases hx
    | hcomparison ops operands _ =>
      intro k nn hk hx
      simp only [literal_hash] at hk
      injection hk with hk
      subst hk
      rw [extract_ne_var_tag "Comparison" (by decide)] at hx
      cases hx
    | hunary o e _ =>
      intro k nn hk hx
      simp only [literal_hash] at hk
      injection hk with hk
      subst hk
      rw [extract_ne_var_tag "Unary" (by decide)] at hx
      cases hx
    | hindex b i _ _ =>
      intro k nn hk hx
      rw [hash_indexE] at hk
      split at hk
      · injection hk with hk
        subst hk
        rw [extract_ne_var_tag "Index" (by decide)] at hx
        cases hx
      · cases hk
    | hlist items _ =>
      intro k nn hk hx
      simp only [literal_hash, seq_expr] at hk
      split at hk
      · injection hk with hk
        subst hk
        rw [extract_ne_var_tag "List" (by decide)] at hx
        cases hx
      · cases hk
    | htuple items _ =>
      intro k nn hk hx
      simp only [literal_hash, seq_expr] at hk
      split at hk
      · injection hk with hk
        subst hk
        rw [extract_ne_var_tag "Tuple" (by decide)] at hx
        cases hx
      · cases hk
    | hset items _ =>
      intro k nn hk hx
      simp only [literal_hash, seq_expr] at hk
      split at hk
      · injection hk with hk
        subst hk
        rw [extract_ne_var_tag "Set" (by decide)] at hx
        cases hx
      · cases hk
    | hdict items _ _ =>
      intro k nn hk hx
      simp only [literal_hash] at hk
      split at hk
      · injection hk with hk
        subst hk
        rw [extract_ne_var_tag "Dict" (by decide)] at hx
        cases hx
      · cases hk

/-- Witness for the amended C8: the plain variable with identity `0` round
trips through hashing and extraction. -/
theorem extract_var_amended_witness :
    extract_var_from_literal_hash [kstr "Var", .node (some (.var 0 false none))] =
      some (.var 0 false none) ∧
    VarRefChain (plainVarE 0) (.var 0 false none) := by
  constructor
  · exact (extract_var_amended.1 0 false none rfl).2
  · exact extract_var_amended.2.2 (plainVarE 0)
      [kstr "Var", .node (some (.var 0 false none))] (.var 0 false none)
      (by rw [plainVarE, hash_nameE]; rfl)
      ((extract_var_amended.1 0 false none rfl).2)



/-- Counterexample to C1: a bare reference to a final variable with
recorded value `3` and the integer literal `3` are structurally different
expressions (one is a `NameExpr`, the other an `IntExpr`, so this is not
the allowed numeric-kind identification), yet they produce identical
present Keys. -/
theorem key_coincidence_cex :
    literal_hash (.nameE (some (.var 0 true (some (.int 3))))) =
      some [kstr "Literal", .v (.int 3)] ∧
    literal_hash (.intE 3) = some [kstr "Literal", .v (.int 3)] ∧
    Expr.nameE (some (.var 0 true (some (.int 3)))) ≠ Expr.intE 3 := by
  refine ⟨?_, ?_, ?_⟩
  · rw [hash_nameE]; rfl
  · simp [literal_hash]
  · intro h
    cases h

/-- Normalization of a Python scalar to a canonical representative of its
`==`-class: numeric values (including bools) become the `complex` form,
strings stay themselves. -/
def normVal (x : PyVal) : PyVal :=
  match x.toC with
  | some (re, im) => .complex re im
  | none => x

mutual

/-- Normalization of a Key element under `normVal`. -/
def normElem : KElem → KElem
  | .v x => .v (normVal x)
  | .node n => .node n
  | .knone => .knone
  | .sub k => .sub (normKey k)
termination_by e => sizeOf e

/-- Elementwise normalization of a Key. -/
def normKey : Key → Key
  | [] => []
  | e :: k => normElem e :: normKey k
termination_by k => sizeOf k

end

mutual

/-- Python `==` on Key elements: scalars by `pyEq`, nodes by identity,
`None` only equals `None`, nested tuples elementwise; elements of
different runtime types are unequal. -/
def elemEq : KElem → KElem → Bool
  | .v a, .v b => pyEq a b
  | .node a, .node b => decide (a = b)
  | .knone, .knone => true
  | .sub k1, .sub k2 => keyEq k1 k2
  | _, _ => false
termination_by a _ => sizeOf a

/-- Python `==` on Keys (tuples): equal length and elementwise `elemEq`. -/
def keyEq : Key → Key → Bool
  | [], [] => true
  | a :: k1, b :: k2 => elemEq a b && keyEq k1 k2
  | _, _ => false
termination_by k1 _ => sizeOf k1

end

theorem pyEq_iff_norm (a b : PyVal) : pyEq a b = true ↔ normVal a = normVal b := by
  cases a <;> cases b <;> simp [pyEq, normVal, PyVal.toC]

mutual

theorem elemEq_iff (a b : KElem) : elemEq a b = true ↔ normElem a = normElem b := by
  cases a <;> cases b <;> simp [elemEq, normElem]
  case v.v x y => exact pyEq_iff_norm x y
  case sub.sub k1 k2 => exact keyEq_iff k1 k2
termination_by sizeOf a

theorem keyEq_iff (k1 k2 : Key) : keyEq k1 k2 = true ↔ normKey k1 = normKey k2 := by
  cases k1 <;> cases k2 <;> simp [keyEq, normKey]
  case cons.cons a as b bs =>
    rw [elemEq_iff a b, keyEq_iff as bs]
termination_by sizeOf k1

end

mutual

/-- Canonicalization of an expression: every scalar literal is replaced by
the canonical (complex) literal of its numeric `==`-class (strings stay),
and all structure is preserved.  Two expressions are "syntactically equal
modulo the numeric-kind identification" exactly when their
canonicalizations are equal. -/
def canon : Expr → Expr
  | .intE n => .complexE (n : Rat) 0
  | .floatE q => .complexE q 0
  | .complexE re im => .complexE re im
  | .strE s => .strE s
  | .bytesE s => .bytesE s
  | .starE e => .starE (canon e)
  | .nameE n => .nameE n
  | .memberE e m => .memberE (canon e) m
  | .opE o l r => .opE o (canon l) (canon r)
  | .comparisonE ops operands => .comparisonE ops (canonList operands)
  | .unaryE o e => .unaryE o (canon e)
  | .listE items => .listE (canonList items)
  | .tupleE items => .tupleE (canonList items)
  | .setE items => .setE (canonList items)
  | .dictE items => .dictE (canonPairs items)
  | .indexE b i => .indexE (canon b) (canon i)
  | .assignE t v => .assignE (canon t) (canon v)
  | .otherE k => .otherE k
termination_by e => sizeOf e

def canonList : List Expr → List Expr
  | [] => []
  | x :: xs => canon x :: canonList xs
termination_by l => sizeOf l

def canonPairs : List (Option Expr × Expr) → List (Option Expr × Expr)
  | [] => []
  | (some a, b) :: ps => (some (canon a), canon b) :: canonPairs ps
  | (none, b) :: ps => (none, canon b) :: canonPairs ps
termination_by l => sizeOf l

end

/-- The well-behaved fragment for the amended C1: expressions built from
int/str/float/complex literals, plain variable references, star, member,
unary, binary and comparison composition, `LITERAL_YES`-gated index
expressions, and collection literals whose elements classify
`LITERAL_YES`.  Excluded (because their hashes coincide with other
expressions' hashes): bytes literals, final-constant variable references,
walrus expressions, and every absent-hashing shape. -/
inductive Nice : Expr → Prop where
  | int : ∀ n, Nice (.intE n)
  | str : ∀ s, Nice (.strE s)
  | float : ∀ q, Nice (.floatE q)
  | complex : ∀ re im, Nice (.complexE re im)
  | name : ∀ node, nodeFinalValue node = none → Nice (.nameE node)
  | star : ∀ e, Nice e → Nice (.starE e)
  | member : ∀ e m, Nice e → Nice (.memberE e m)
  | unary : ∀ o e, Nice e → Nice (.unaryE o e)
  | op : ∀ o l r, Nice l → Nice r → Nice (.opE o l r)
  | comparison : ∀ ops operands, (∀ x ∈ operands, Nice x) →
      Nice (.comparisonE ops operands)
  | index : ∀ b i, Nice b → Nice i → literal i = LITERAL_YES → Nice (.indexE b i)
  | list : ∀ items, (∀ x ∈ items, Nice x) → (∀ x ∈ items, literal x = LITERAL_YES) →
      Nice (.listE items)
  | tuple : ∀ items, (∀ x ∈ items, Nice x) → (∀ x ∈ items, literal x = LITERAL_YES) →
      Nice (.tupleE items)
  | set : ∀ items, (∀ x ∈ items, Nice x) → (∀ x ∈ items, literal x = LITERAL_YES) →
      Nice (.setE items)
  | dict : ∀ items,
      (∀ p ∈ items, ∀ a, p.1 = some a → Nice a) →
      (∀ p ∈ items, Nice p.2) →
      (∀ p ∈ items, ∃ a, p.1 = some a ∧ literal a = LITERAL_YES ∧
        literal p.2 = LITERAL_YES) →
      Nice (.dictE items)



theorem nice_hash_isSome (e : Expr) (h : Nice e) : (literal_hash e).isSome := by
  induction h with
  | int n => simp [literal_hash]
  | str s => simp [literal_hash]
  | float q => simp [literal_hash]
  | complex re im => simp [literal_hash]
  | name node hn => rw [hash_nameE, hn]; rfl
  | star e _ _ => simp [literal_hash]
  | member e m _ _ => simp [literal_hash]
  | unary o e _ _ => simp [literal_hash]
  | op o l r _ _ _ _ => simp [literal_hash]
  | comparison ops operands _ _ => simp [literal_hash]
  | index b i _ _ hi _ _ => rw [hash_indexE, if_pos hi]; rfl
  | list items _ hy _ =>
    have : allYes items = true := (allYes_iff items).mpr hy
    simp [literal_hash, seq_expr, this]
  | tuple items _ hy _ =>
    have : allYes items = true := (allYes_iff items).mpr hy
    simp [literal_hash, seq_expr, this]
  | set items _ hy _ =>
    have : allYes items = true := (allYes_iff items).mpr hy
    simp [literal_hash, seq_expr, this]
  | dict items _ _ hg _ _ =>
    have : dictGuard items = true := (dictGuard_iff items).mpr hg
    simp [literal_hash, this]

theorem literalMin_canonList (l : List Expr)
    (h : ∀ x ∈ l, literal (canon x) = literal x) :
    literalMin (canonList l) = literalMin l := by
  induction l with
  | nil => simp [canonList]
  | cons x xs ih =>
    rw [show canonList (x :: xs) = canon x :: canonList xs from by simp [canonList],
      literalMin_cons, literalMin_cons, h x (by simp), ih (fun y hy => h y (by simp [hy]))]

theorem allYes_canonList (l : List Expr)
    (h : ∀ x ∈ l, literal (canon x) = literal x) :
    allYes (canonList l) = allYes l := by
  induction l with
  | nil => simp [canonList]
  | cons x xs ih =>
    rw [show canonList (x :: xs) = canon x :: canonList xs from by simp [canonList]]
    simp only [allYes]
    rw [h x (by simp), ih (fun y hy => h y (by simp [hy]))]

theorem dictGuard_canonPairs (l : List (Option Expr × Expr))
    (hk : ∀ p ∈ l, ∀ a, p.1 = some a → literal (canon a) = literal a)
    (hv : ∀ p ∈ l, literal (canon p.2) = literal p.2) :
    dictGuard (canonPairs l) = dictGuard l := by
  induction l with
  | nil => simp [canonPairs]
  | cons p ps ih =>
    rcases p with ⟨a | a, b⟩
    · rw [show canonPairs ((none, b) :: ps) = (none, canon b) :: canonPairs ps from by
        simp [canonPairs]]
      simp [dictGuard]
    · rw [show canonPairs ((some a, b) :: ps) = (some (canon a), canon b) :: canonPairs ps from by
        simp [canonPairs]]
      simp only [dictGuard]
      rw [hk (some a, b) (by simp) a rfl, hv (some a, b) (by simp),
        ih (fun q hq => hk q (by simp [hq])) (fun q hq => hv q (by simp [hq]))]

theorem literal_canon (e : Expr) (h : Nice e) : literal (canon e) = literal e := by
  induction h with
  | int n => simp [canon, literal]
  | str s => simp [canon]
  | float q => simp [canon, literal]
  | complex re im => simp [canon]
  | name node hn => simp [canon]
  | star e _ ih =>
    rw [show canon (.starE e) = .starE (canon e) from by simp [canon]]
    simp only [literal]
    exact ih
  | member e m _ ih =>
    rw [show canon (.memberE e m) = .memberE (canon e) m from by simp [canon]]
    rw [literal_memberE, literal_memberE]
    exact ih
  | unary o e _ ih =>
    rw [show canon (.unaryE o e) = .unaryE o (canon e) from by simp [canon]]
    simp only [literal]
    exact ih
  | op o l r _ _ ihl ihr =>
    rw [show canon (.opE o l r) = .opE o (canon l) (canon r) from by simp [canon]]
    simp only [literal]
    rw [ihl, ihr]
  | comparison ops operands _ ih =>
    rw [show canon (.comparisonE ops operands) = .comparisonE ops (canonList operands) from by
      simp [canon]]
    simp only [literal]
    exact literalMin_canonList operands ih
  | index b i _ _ hi ihb ihi =>
    rw [show canon (.indexE b i) = .indexE (canon b) (canon i) from by simp [canon]]
    rw [literal_indexE, literal_indexE, ihb, ihi]
  | list items _ _ ih =>
    rw [show canon (.listE items) = .listE (canonList items) from by simp [canon]]
    rw [literal_listE, literal_listE, allYes_canonList items ih]
  | tuple items _ _ ih =>
    rw [show canon (.tupleE items) = .tupleE (canonList items) from by simp [canon]]
    rw [literal_tupleE, literal_tupleE, allYes_canonList items ih]
  | set items _ _ ih =>
    rw [show canon (.setE items) = .setE (canonList items) from by simp [canon]]
    rw [literal_setE, literal_setE, allYes_canonList items ih]
  | dict items _ _ _ ihk ihv =>
    rw [show canon (.dictE items) = .dictE (canonPairs items) from by simp [canon]]
    rw [literal_dictE, literal_dictE, dictGuard_canonPairs items ihk ihv]

theorem keyElemOf_norm (o : Option Key) :
    keyElemOf (o.map normKey) = normElem (keyElemOf o) := by
  cases o <;> simp [keyElemOf, normElem]

theorem normKey_eq_map (k : Key) : normKey k = k.map normElem := by
  induction k with
  | nil => simp [normKey]
  | cons a as ih => simp [normKey, ih]

theorem hashItems_canonList (l : List Expr)
    (h : ∀ x ∈ l, literal_hash (canon x) = (literal_hash x).map normKey) :
    hashItems (canonList l) = (hashItems l).map normElem := by
  induction l with
  | nil => simp [canonList, hashItems]
  | cons x xs ih =>
    rw [show canonList (x :: xs) = canon x :: canonList xs from by simp [canonList]]
    simp only [hashItems, List.map_cons]
    rw [h x (by simp), keyElemOf_norm, ih (fun y hy => h y (by simp [hy]))]

theorem dictItems_canonPairs (l : List (Option Expr × Expr))
    (hk : ∀ p ∈ l, ∀ a, p.1 = some a → literal_hash (canon a) = (literal_hash a).map normKey)
    (hv : ∀ p ∈ l, literal_hash (canon p.2) = (literal_hash p.2).map normKey) :
    dictItems (canonPairs l) = (dictItems l).map normElem := by
  induction l with
  | nil => simp [canonPairs, dictItems]
  | cons p ps ih =>
    rcases p with ⟨a | a, b⟩
    · rw [show canonPairs ((none, b) :: ps) = (none, canon b) :: canonPairs ps from by
        simp [canonPairs]]
      simp only [dictItems, List.map_cons]
      rw [hv (none, b) (by simp), keyElemOf_norm,
        ih (fun q hq => hk q (by simp [hq])) (fun q hq => hv q (by simp [hq]))]
      simp [normElem, normKey]
    · rw [show canonPairs ((some a, b) :: ps) = (some (canon a), canon b) :: canonPairs ps from by
        simp [canonPairs]]
      simp only [dictItems, List.map_cons]
      rw [hk (some a, b) (by simp) a rfl, hv (some a, b) (by simp), keyElemOf_norm,
        keyElemOf_norm, ih (fun q hq => hk q (by simp [hq])) (fun q hq => hv q (by simp [hq]))]
      simp [normElem, normKey]

theorem hash_canon (e : Expr) (h : Nice e) :
    literal_hash (canon e) = (literal_hash e).map normKey := by
  induction h with
  | int n => simp [canon, literal_hash, normKey, normElem, normVal, PyVal.toC, kstr]
  | str s => simp [canon, literal_hash, normKey, normElem, normVal, PyVal.toC, kstr]
  | float q => simp [canon, literal_hash, normKey, normElem, normVal, PyVal.toC, kstr]
  | complex re im => simp [canon, literal_hash, normKey, normElem, normVal, PyVal.toC, kstr]
  | name node hn =>
    rw [show canon (.nameE node) = .nameE node from by simp [canon]]
    rw [hash_nameE, hn]
    simp [normKey, normElem, normVal, PyVal.toC, kstr]
  | star e _ ih =>
    rw [show canon (.starE e) = .starE (canon e) from by simp [canon]]
    simp only [literal_hash]
    rw [ih, keyElemOf_norm]
    simp [normKey, normElem, normVal, PyVal.toC, kstr]
  | member e m _ ih =>
    rw [show canon (.memberE e m) = .memberE (canon e) m from by simp [canon]]
    rw [hash_memberE, hash_memberE, ih, keyElemOf_norm]
    simp [normKey, normElem, normVal, PyVal.toC, kstr]
  | unary o e _ ih =>
    rw [show canon (.unaryE o e) = .unaryE o (canon e) from by simp [canon]]
    simp only [literal_hash]
    rw [ih, keyElemOf_norm]
    simp [normKey, normElem, normVal, PyVal.toC, kstr]
  | op o l r _ _ ihl ihr =>
    rw [show canon (.opE o l r) = .opE o (canon l) (canon r) from by simp [canon]]
    simp only [literal_hash]
    rw [ihl, ihr, keyElemOf_norm, keyElemOf_norm]
    simp [normKey, normElem, normVal, PyVal.toC, kstr]
  | comparison ops operands _ ih =>
    rw [show canon (.comparisonE ops operands) = .comparisonE ops (canonList operands) from by
      simp [canon]]
    simp only [literal_hash]
    rw [hashItems_canonList operands ih]
    simp only [Option.map_some', Option.some.injEq, normKey_eq_map, List.map_cons,
      List.map_append, List.map_map]
    have h1 : normElem (kstr "Comparison") = kstr "Comparison" := by
      simp [normElem, normVal, PyVal.toC, kstr]
    have h2 : List.map (normElem ∘ fun o => KElem.v (PyVal.str o)) ops =
        List.map (fun o => KElem.v (PyVal.str o)) ops := by
      apply List.map_congr_left
      intro s _
      simp [normElem, normVal, PyVal.toC, Function.comp]
    rw [h1, h2]
  | index b i _ _ hi ihb ihi =>
    rw [show canon (.indexE b i) = .indexE (canon b) (canon i) from by simp [canon]]
    rw [hash_indexE, hash_indexE, literal_canon i (by assumption), if_pos hi, if_pos hi,
      ihb, ihi, keyElemOf_norm, keyElemOf_norm]
    simp [normKey, normElem, normVal, PyVal.toC, kstr]
  | list items hn hy ih =>
    rw [show canon (.listE items) = .listE (canonList items) from by simp [canon]]
    have hay : allYes items = true := (allYes_iff items).mpr hy
    have hay2 : allYes (canonList items) = true := by
      rw [allYes_canonList items (fun x hx => literal_canon x (hn x hx))]
      exact hay
    simp only [literal_hash, seq_expr, hay, hay2, if_true]
    rw [hashItems_canonList items ih]
    simp [normKey_eq_map, normElem, normVal, PyVal.toC, kstr]
  | tuple items hn hy ih =>
    rw [show canon (.tupleE items) = .tupleE (canonList items) from by simp [canon]]
    have hay : allYes items = true := (allYes_iff items).mpr hy
    have hay2 : allYes (canonList items) = true := by
      rw [allYes_canonList items (fun x hx => literal_canon x (hn x hx))]
      exact hay
    simp only [literal_hash, seq_expr, hay, hay2, if_true]
    rw [hashItems_canonList items ih]
    simp [normKey_eq_map, normElem, normVal, PyVal.toC, kstr]
  | set items hn hy ih =>
    rw [show canon (.setE items) = .setE (canonList items) from by simp [canon]]
    have hay : allYes items = true := (allYes_iff items).mpr hy
    have hay2 : allYes (canonList items) = true := by
      rw [allYes_canonList items (fun x hx => literal_canon x (hn x hx))]
      exact hay
    simp only [literal_hash, seq_expr, hay, hay2, if_true]
    rw [hashItems_canonList items ih]
    simp [normKey_eq_map, normElem, normVal, PyVal.toC, kstr]
  | dict items hnk hnv hg ihk ihv =>
    rw [show canon (.dictE items) = .dictE (canonPairs items) from by simp [canon]]
    have hdg : dictGuard items = true := (dictGuard_iff items).mpr hg
    have hdg2 : dictGuard (canonPairs items) = true := by
      rw [dictGuard_canonPairs items
        (fun p hp a ha => literal_canon a (hnk p hp a ha))
        (fun p hp => literal_canon p.2 (hnv p hp))]
      exact hdg
    simp only [literal_hash, hdg, hdg2, if_true]
    rw [dictItems_canonPairs items ihk ihv]
    simp [normKey_eq_map, normElem, normVal, PyVal.toC, kstr]



/-- The canonical scalar literal expression for a Key scalar value. -/
def scalarExprOf : PyVal → Expr
  | .int n => .intE n
  | .float q => .floatE q
  | .complex re im => .complexE re im
  | .str s => .strE s
  | .bool b => .intE (if b then 1 else 0)

/-- The maximal leading run of string elements of a Key (the operator
symbols of a `Comparison` Key). -/
def takeStrs : Key → List String
  | [] => []
  | a :: rest =>
    match a with
    | KElem.v (PyVal.str s) => s :: takeStrs rest
    | _ => []

/-- The Key after its maximal leading run of string elements (the operand
hashes of a `Comparison` Key). -/
def dropStrs : Key → Key
  | [] => []
  | a :: rest =>
    match a with
    | KElem.v (PyVal.str _) => dropStrs rest
    | _ => a :: rest

theorem dropStrs_sizeOf_le (k : Key) : sizeOf (dropStrs k) ≤ sizeOf k := by
  induction k with
  | nil => simp [dropStrs]
  | cons a rest ih =>
    cases a with
    | v x =>
      cases x with
      | str s =>
        rw [show dropStrs (KElem.v (PyVal.str s) :: rest) = dropStrs rest from by
          simp [dropStrs]]
        refine le_trans ih ?_
        simp only [List.cons.sizeOf_spec]
        omega
      | int n => simp [dropStrs]
      | float q => simp [dropStrs]
      | complex re im => simp [dropStrs]
      | bool b => simp [dropStrs]
    | node n => simp [dropStrs]
    | knone => simp [dropStrs]
    | sub s => simp [dropStrs]

/-- Sub-keys listed in a Key segment: the contents of its `sub` elements,
in order (the operand hashes of a comparison or collection Key). -/
def subsOf : Key → List Key
  | [] => []
  | KElem.sub k :: rest => k :: subsOf rest
  | _ :: rest => subsOf rest

/-- The flattened (key, value) sub-keys of a `Dict` Key segment. -/
def dictKeysOf : Key → List Key
  | [] => []
  | KElem.sub [KElem.sub ka, KElem.sub kb] :: rest => ka :: kb :: dictKeysOf rest
  | _ :: rest => dictKeysOf rest

/-- The nested Keys a tagged Key requires decoded, in order. -/
def childKeys (t : String) (rest : Key) : List Key :=
  if t = "Star" then
    match rest with
    | [KElem.sub k] => [k]
    | _ => []
  else if t = "Member" then
    match rest with
    | [KElem.sub k, KElem.v (PyVal.str _)] => [k]
    | _ => []
  else if t = "Unary" then
    match rest with
    | [KElem.v (PyVal.str _), KElem.sub k] => [k]
    | _ => []
  else if t = "Binary" then
    match rest with
    | [KElem.v (PyVal.str _), KElem.sub k1, KElem.sub k2] => [k1, k2]
    | _ => []
  else if t = "Index" then
    match rest with
    | [KElem.sub k1, KElem.sub k2] => [k1, k2]
    | _ => []
  else if t = "Comparison" then subsOf (dropStrs rest)
  else if t = "List" ∨ t = "Tuple" ∨ t = "Set" then subsOf rest
  else if t = "Dict" then dictKeysOf rest
  else []

/-- `sequence` for decoded children: all present or nothing. -/
def optionAll : List (Option Expr) → Option (List Expr)
  | [] => some []
  | some e :: rest => (optionAll rest).map (fun es => e :: es)
  | none :: _ => none

/-- Regroup a flattened `Dict` child list into (key, value) entries. -/
def pairUp : List Expr → List (Option Expr × Expr)
  | a :: b :: rest => (some a, b) :: pairUp rest
  | _ => []

/-- Rebuild the expression for a tagged Key from its decoded children. -/
def assemble (t : String) (rest : Key) (children : List (Option Expr)) : Option Expr :=
  if t = "Literal" then
    match rest with
    | [KElem.v x] => some (scalarExprOf x)
    | _ => none
  else if t = "Var" then
    match rest with
    | [KElem.node n] => some (.nameE n)
    | _ => none
  else if t = "Star" then
    match children with
    | [some e] => some (.starE e)
    | _ => none
  else if t = "Member" then
    match rest, children with
    | [_, KElem.v (PyVal.str m)], [some e] => some (.memberE e m)
    | _, _ => none
  else if t = "Unary" then
    match rest, children with
    | KElem.v (PyVal.str o) :: _, [some e] => some (.unaryE o e)
    | _, _ => none
  else if t = "Binary" then
    match rest, children with
    | KElem.v (PyVal.str o) :: _, [some l, some r] => some (.opE o l r)
    | _, _ => none
  else if t = "Index" then
    match children with
    | [some b, some i] => some (.indexE b i)
    | _ => none
  else if t = "Comparison" then
    (optionAll children).map (fun es => .comparisonE (takeStrs rest) es)
  else if t = "List" then (optionAll children).map Expr.listE
  else if t = "Tuple" then (optionAll children).map Expr.tupleE
  else if t = "Set" then (optionAll children).map Expr.setE
  else if t = "Dict" then (optionAll children).map (fun es => .dictE (pairUp es))
  else none

theorem subsOf_sizeOf_le (k : Key) : sizeOf (subsOf k) ≤ sizeOf k := by
  induction k with
  | nil => simp [subsOf]
  | cons a rest ih =>
    cases a with
    | sub s =>
      rw [show subsOf (KElem.sub s :: rest) = s :: subsOf rest from by simp [subsOf]]
      simp only [List.cons.sizeOf_spec, KElem.sub.sizeOf_spec]
      omega
    | v x =>
      rw [show subsOf (KElem.v x :: rest) = subsOf rest from by simp [subsOf]]
      simp only [List.cons.sizeOf_spec]
      omega
    | node n =>
      rw [show subsOf (KElem.node n :: rest) = subsOf rest from by simp [subsOf]]
      simp only [List.cons.sizeOf_spec]
      omega
    | knone =>
      rw [show subsOf (KElem.knone :: rest) = subsOf rest from by simp [subsOf]]
      simp only [List.cons.sizeOf_spec]
      omega

theorem dictKeysOf_sizeOf_le (k : Key) : sizeOf (dictKeysOf k) ≤ sizeOf k := by
  induction k using dictKeysOf.induct <;> simp_all [dictKeysOf] <;> try omega

theorem childKeys_sizeOf_le (t : String) (rest : Key) :
    sizeOf (childKeys t rest) ≤ sizeOf rest := by
  have hnil : (1 : Nat) ≤ sizeOf rest := by
    cases rest <;> simp <;> try omega
  unfold childKeys
  split
  · split <;> simp_all <;> try omega
  split
  · split <;> simp_all <;> try omega
  split
  · split <;> simp_all <;> try omega
  split
  · split <;> simp_all <;> try omega
  split
  · split <;> simp_all <;> try omega
  split
  · exact le_trans (subsOf_sizeOf_le _) (dropStrs_sizeOf_le rest)
  split
  · exact subsOf_sizeOf_le rest
  split
  · exact dictKeysOf_sizeOf_le rest
  simpa using hnil

mutual

/-- Partial inverse of `literal_hash` on normalized Keys: reconstructs the
canonical expression a (normalized) Key was produced from. -/
def decode : Key → Option Expr
  | KElem.v (PyVal.str t) :: rest => assemble t rest (decodeList (childKeys t rest))
  | _ => none
termination_by k => sizeOf k
decreasing_by
  have h := childKeys_sizeOf_le t rest
  simp only [List.cons.sizeOf_spec, KElem.v.sizeOf_spec, PyVal.str.sizeOf_spec]
  omega

def decodeList : List Key → List (Option Expr)
  | [] => []
  | k :: ks => decode k :: decodeList ks
termination_by ks => sizeOf ks

end



theorem takeStrs_strs_subs (ops : List String) (tail : Key)
    (h : ∀ el ∈ tail, ∃ k, el = KElem.sub k) :
    takeStrs (ops.map (fun s => KElem.v (.str s)) ++ tail) = ops := by
  induction ops with
  | nil =>
    cases tail with
    | nil => simp [takeStrs]
    | cons el rest =>
      rcases h el (by simp) with ⟨k, rfl⟩
      simp [takeStrs]
  | cons o os ih =>
    simp only [List.map_cons, List.cons_append]
    rw [show takeStrs (KElem.v (.str o) :: (os.map (fun s => KElem.v (.str s)) ++ tail)) =
      o :: takeStrs (os.map (fun s => KElem.v (.str s)) ++ tail) from by simp [takeStrs]]
    rw [ih]

theorem dropStrs_strs_subs (ops : List String) (tail : Key)
    (h : ∀ el ∈ tail, ∃ k, el = KElem.sub k) :
    dropStrs (ops.map (fun s => KElem.v (.str s)) ++ tail) = tail := by
  induction ops with
  | nil =>
    cases tail with
    | nil => simp [dropStrs]
    | cons el rest =>
      rcases h el (by simp) with ⟨k, rfl⟩
      simp [dropStrs]
  | cons o os ih =>
    simp only [List.map_cons, List.cons_append]
    rw [show dropStrs (KElem.v (.str o) :: (os.map (fun s => KElem.v (.str s)) ++ tail)) =
      dropStrs (os.map (fun s => KElem.v (.str s)) ++ tail) from by simp [dropStrs]]
    rw [ih]

theorem decode_cons (t : String) (rest : Key) :
    decode (kstr t :: rest) = assemble t rest (decodeList (childKeys t rest)) := by
  simp [decode, kstr]

theorem subsOf_map_sub (ks : List Key) : subsOf (ks.map KElem.sub) = ks := by
  induction ks with
  | nil => simp [subsOf]
  | cons k rest ih => simp [subsOf, ih]

theorem decodeList_eq_map (ks : List Key) : decodeList ks = ks.map decode := by
  induction ks with
  | nil => simp [decodeList]
  | cons k rest ih => simp [decodeList, ih]

theorem decode_literal (x : PyVal) :
    decode [kstr "Literal", KElem.v x] = some (scalarExprOf x) := by
  rw [decode_cons]
  rfl

theorem decode_var (n : Option SymNode) :
    decode [kstr "Var", KElem.node n] = some (.nameE n) := by
  rw [decode_cons]
  rfl

theorem decode_star (k : Key) :
    decode [kstr "Star", KElem.sub k] = (decode k).map Expr.starE := by
  rw [decode_cons]
  rw [show childKeys "Star" [KElem.sub k] = [k] from rfl]
  rw [show decodeList [k] = [decode k] from by simp [decodeList]]
  rcases decode k with _ | e <;> rfl

theorem decode_member (k : Key) (m : String) :
    decode [kstr "Member", KElem.sub k, KElem.v (.str m)] =
      (decode k).map (fun e => Expr.memberE e m) := by
  rw [decode_cons]
  rw [show childKeys "Member" [KElem.sub k, KElem.v (.str m)] = [k] from rfl]
  rw [show decodeList [k] = [decode k] from by simp [decodeList]]
  rcases decode k with _ | e <;> rfl

theorem decode_unary (o : String) (k : Key) :
    decode [kstr "Unary", KElem.v (.str o), KElem.sub k] =
      (decode k).map (fun e => Expr.unaryE o e) := by
  rw [decode_cons]
  rw [show childKeys "Unary" [KElem.v (.str o), KElem.sub k] = [k] from rfl]
  rw [show decodeList [k] = [decode k] from by simp [decodeList]]
  rcases decode k with _ | e <;> rfl

theorem decode_binary (o : String) (k1 k2 : Key) :
    decode [kstr "Binary", KElem.v (.str o), KElem.sub k1, KElem.sub k2] =
      match decode k1, decode k2 with
      | some l, some r => some (.opE o l r)
      | _, _ => none := by
  rw [decode_cons]
  rw [show childKeys "Binary" [KElem.v (.str o), KElem.sub k1, KElem.sub k2] = [k1, k2] from rfl]
  rw [show decodeList [k1, k2] = [decode k1, decode k2] from by simp [decodeList]]
  rcases decode k1 with _ | l <;> rcases decode k2 with _ | r <;> rfl

theorem decode_index (k1 k2 : Key) :
    decode [kstr "Index", KElem.sub k1, KElem.sub k2] =
      match decode k1, decode k2 with
      | some b, some i => some (.indexE b i)
      | _, _ => none := by
  rw [decode_cons]
  rw [show childKeys "Index" [KElem.sub k1, KElem.sub k2] = [k1, k2] from rfl]
  rw [show decodeList [k1, k2] = [decode k1, decode k2] from by simp [decodeList]]
  rcases decode k1 with _ | b <;> rcases decode k2 with _ | i <;> rfl

theorem decode_comparison (ops : List String) (ks : List Key) :
    decode (kstr "Comparison" :: (ops.map (fun s => KElem.v (.str s)) ++ ks.map KElem.sub)) =
      (optionAll (decodeList ks)).map (fun es => Expr.comparisonE ops es) := by
  rw [decode_cons]
  have hsub : ∀ el ∈ ks.map KElem.sub, ∃ k, el = KElem.sub k := by
    intro el hel
    rcases List.mem_map.mp hel with ⟨k, -, rfl⟩
    exact ⟨k, rfl⟩
  have hck : childKeys "Comparison" (ops.map (fun s => KElem.v (.str s)) ++ ks.map KElem.sub)
      = ks := by
    rw [show childKeys "Comparison" (ops.map (fun s => KElem.v (.str s)) ++ ks.map KElem.sub) =
      subsOf (dropStrs (ops.map (fun s => KElem.v (.str s)) ++ ks.map KElem.sub)) from rfl]
    rw [dropStrs_strs_subs ops _ hsub, subsOf_map_sub]
  rw [hck]
  rw [show assemble "Comparison"
      (ops.map (fun s => KElem.v (.str s)) ++ ks.map KElem.sub) (decodeList ks) =
    (optionAll (decodeList ks)).map (fun es => Expr.comparisonE
      (takeStrs (ops.map (fun s => KElem.v (.str s)) ++ ks.map KElem.sub)) es) from rfl]
  rw [takeStrs_strs_subs ops _ hsub]

theorem decode_seq (t : String) (hl : t = "List" ∨ t = "Tuple" ∨ t = "Set") (ks : List Key) :
    decode (kstr t :: ks.map KElem.sub) =
      (optionAll (decodeList ks)).map (fun es =>
        if t = "List" then Expr.listE es else if t = "Tuple" then Expr.tupleE es
        else Expr.setE es) := by
  rcases hl with rfl | rfl | rfl
  · rw [decode_cons]
    rw [show childKeys "List" (ks.map KElem.sub) = subsOf (ks.map KElem.sub) from rfl,
      subsOf_map_sub]
    rfl
  · rw [decode_cons]
    rw [show childKeys "Tuple" (ks.map KElem.sub) = subsOf (ks.map KElem.sub) from rfl,
      subsOf_map_sub]
    rfl
  · rw [decode_cons]
    rw [show childKeys "Set" (ks.map KElem.sub) = subsOf (ks.map KElem.sub) from rfl,
      subsOf_map_sub]
    rfl

theorem dictKeysOf_entries (l : List (Key × Key)) :
    dictKeysOf (l.map (fun p => KElem.sub [KElem.sub p.1, KElem.sub p.2])) =
      l.foldr (fun p acc => p.1 :: p.2 :: acc) [] := by
  induction l with
  | nil => simp [dictKeysOf]
  | cons p rest ih => simp [dictKeysOf, ih]

theorem decode_dict (l : List (Key × Key)) :
    decode (kstr "Dict" :: l.map (fun p => KElem.sub [KElem.sub p.1, KElem.sub p.2])) =
      (optionAll (decodeList (l.foldr (fun p acc => p.1 :: p.2 :: acc) []))).map
        (fun es => Expr.dictE (pairUp es)) := by
  rw [decode_cons]
  rw [show childKeys "Dict" (l.map (fun p => KElem.sub [KElem.sub p.1, KElem.sub p.2])) =
    dictKeysOf (l.map (fun p => KElem.sub [KElem.sub p.1, KElem.sub p.2])) from rfl]
  rw [dictKeysOf_entries]
  rfl



theorem normElem_kstr (s : String) : normElem (kstr s) = kstr s := by
  simp [normElem, normVal, PyVal.toC, kstr]

theorem seq_decode_aux (l : List Expr) (hn : ∀ x ∈ l, Nice x)
    (ih : ∀ x ∈ l, ∀ kx, literal_hash x = some kx → decode (normKey kx) = some (canon x)) :
    ∃ ks : List Key, (hashItems l).map normElem = ks.map KElem.sub ∧
      optionAll (decodeList ks) = some (canonList l) := by
  induction l with
  | nil => exact ⟨[], by simp [hashItems], by simp [decodeList, optionAll, canonList]⟩
  | cons x xs ihl =>
    rcases hhx : literal_hash x with _ | kx
    · have := nice_hash_isSome x (hn x (by simp))
      rw [hhx] at this
      cases this
    rcases ihl (fun y hy => hn y (by simp [hy])) (fun y hy => ih y (by simp [hy])) with
      ⟨ks, hks, hdec⟩
    refine ⟨normKey kx :: ks, ?_, ?_⟩
    · simp only [hashItems, List.map_cons, hhx, keyElemOf, normElem]
      rw [hks]
    · rw [show decodeList (normKey kx :: ks) = decode (normKey kx) :: decodeList ks from by
        simp [decodeList]]
      rw [ih x (by simp) kx hhx]
      rw [show canonList (x :: xs) = canon x :: canonList xs from by simp [canonList]]
      simp only [optionAll, hdec, Option.map_some']

theorem dict_decode_aux (l : List (Option Expr × Expr))
    (hg : ∀ p ∈ l, ∃ a, p.1 = some a ∧ literal a = LITERAL_YES ∧ literal p.2 = LITERAL_YES)
    (hnk : ∀ p ∈ l, ∀ a, p.1 = some a → Nice a)
    (hnv : ∀ p ∈ l, Nice p.2)
    (ihk : ∀ p ∈ l, ∀ a, p.1 = some a → ∀ k, literal_hash a = some k →
      decode (normKey k) = some (canon a))
    (ihv : ∀ p ∈ l, ∀ k, literal_hash p.2 = some k → decode (normKey k) = some (canon p.2)) :
    ∃ pl : List (Key × Key),
      (dictItems l).map normElem = pl.map (fun p => KElem.sub [KElem.sub p.1, KElem.sub p.2]) ∧
      (optionAll (decodeList (pl.foldr (fun p acc => p.1 :: p.2 :: acc) []))).map pairUp =
        some (canonPairs l) := by
  induction l with
  | nil => exact ⟨[], by simp [dictItems], by simp [decodeList, optionAll, pairUp, canonPairs]⟩
  | cons p ps ihl =>
    rcases p with ⟨pa, b⟩
    rcases hg (pa, b) (by simp) with ⟨a, ha, -, -⟩
    simp only at ha
    subst ha
    rcases hha : literal_hash a with _ | ka
    · have := nice_hash_isSome a (hnk (some a, b) (by simp) a rfl)
      rw [hha] at this
      cases this
    rcases hhb : literal_hash b with _ | kb
    · have := nice_hash_isSome b (hnv (some a, b) (by simp))
      rw [hhb] at this
      cases this
    rcases ihl (fun q hq => hg q (by simp [hq])) (fun q hq => hnk q (by simp [hq]))
      (fun q hq => hnv q (by simp [hq])) (fun q hq => ihk q (by simp [hq]))
      (fun q hq => ihv q (by simp [hq])) with ⟨pl, hpl, hdec⟩
    refine ⟨(normKey ka, normKey kb) :: pl, ?_, ?_⟩
    · simp only [dictItems, List.map_cons, hha, hhb, keyElemOf]
      rw [hpl]
      rw [show normElem (KElem.sub [KElem.sub ka, KElem.sub kb]) =
        KElem.sub [KElem.sub (normKey ka), KElem.sub (normKey kb)] from by
        simp [normElem, normKey]]
    · simp only [List.foldr_cons]
      rw [show decodeList (normKey ka :: normKey kb ::
          pl.foldr (fun p acc => p.1 :: p.2 :: acc) []) =
        decode (normKey ka) :: decode (normKey kb) ::
          decodeList (pl.foldr (fun p acc => p.1 :: p.2 :: acc) []) from by
        simp [decodeList]]
      rw [ihk (some a, b) (by simp) a rfl ka hha, ihv (some a, b) (by simp) kb hhb]
      rcases hoa : optionAll (decodeList (pl.foldr (fun p acc => p.1 :: p.2 :: acc) []))
        with _ | es
      · rw [hoa] at hdec
        cases hdec
      · rw [hoa] at hdec
        simp only [Option.map_some', Option.some.injEq] at hdec
        simp only [optionAll, hoa, Option.map_some', Option.some.injEq]
        rw [show canonPairs ((some a, b) :: ps) =
          (some (canon a), canon b) :: canonPairs ps from by simp [canonPairs]]
        rw [show pairUp (canon a :: canon b :: es) = (some (canon a), canon b) :: pairUp es
          from by simp [pairUp]]
        rw [hdec]

theorem decode_hash (e : Expr) (h : Nice e) :
    ∀ k, literal_hash e = some k → decode (normKey k) = some (canon e) := by
  induction h with
  | int n =>
    intro k hk
    simp only [literal_hash] at hk
    injection hk with hk
    subst hk
    rw [show normKey [kstr "Literal", KElem.v (PyVal.int n)] =
      [kstr "Literal", KElem.v (PyVal.complex n 0)] from by
      simp [normKey, normElem, normVal, PyVal.toC, normElem_kstr]]
    rw [decode_literal]
    simp [scalarExprOf, canon]
  | str s =>
    intro k hk
    simp only [literal_hash] at hk
    injection hk with hk
    subst hk
    rw [show normKey [kstr "Literal", KElem.v (PyVal.str s)] =
      [kstr "Literal", KElem.v (PyVal.str s)] from by
      simp [normKey, normElem, normVal, PyVal.toC, normElem_kstr]]
    rw [decode_literal]
    simp [scalarExprOf, canon]
  | float q =>
    intro k hk
    simp only [literal_hash] at hk
    injection hk with hk
    subst hk
    rw [show normKey [kstr "Literal", KElem.v (PyVal.float q)] =
      [kstr "Literal", KElem.v (PyVal.complex q 0)] from by
      simp [normKey, normElem, normVal, PyVal.toC, normElem_kstr]]
    rw [decode_literal]
    simp [scalarExprOf, canon]
  | complex re im =>
    intro k hk
    simp only [literal_hash] at hk
    injection hk with hk
    subst hk
    rw [show normKey [kstr "Literal", KElem.v (PyVal.complex re im)] =
      [kstr "Literal", KElem.v (PyVal.complex re im)] from by
      simp [normKey, normElem, normVal, PyVal.toC, normElem_kstr]]
    rw [decode_literal]
    simp [scalarExprOf, canon]
  | name node hn =>
    intro k hk
    rw [hash_nameE, hn] at hk
    injection hk with hk
    subst hk
    rw [show normKey [kstr "Var", KElem.node node] = [kstr "Var", KElem.node node] from by
      simp [normKey, normElem, normElem_kstr]]
    rw [decode_var]
    simp [canon]
  | star e hne ih =>
    intro k hk
    simp only [literal_hash] at hk
    rcases hs : literal_hash e with _ | ke
    · have := nice_hash_isSome e hne
      rw [hs] at this
      cases this
    rw [hs] at hk
    injection hk with hk
    subst hk
    rw [show normKey [kstr "Star", keyElemOf (some ke)] =
      [kstr "Star", KElem.sub (normKey ke)] from by
      simp [normKey, normElem, normElem_kstr, keyElemOf]]
    rw [decode_star, ih ke hs]
    simp [canon]
  | member e m hne ih =>
    intro k hk
    rw [hash_memberE] at hk
    rcases hs : literal_hash e with _ | ke
    · have := nice_hash_isSome e hne
      rw [hs] at this
      cases this
    rw [hs] at hk
    injection hk with hk
    subst hk
    rw [show normKey [kstr "Member", keyElemOf (some ke), KElem.v (PyVal.str m)] =
      [kstr "Member", KElem.sub (normKey ke), KElem.v (PyVal.str m)] from by
      simp [normKey, normElem, normElem_kstr, keyElemOf, normVal, PyVal.toC]]
    rw [decode_member, ih ke hs]
    simp [canon]
  | unary o e hne ih =>
    intro k hk
    simp only [literal_hash] at hk
    rcases hs : literal_hash e with _ | ke
    · have := nice_hash_isSome e hne
      rw [hs] at this
      cases this
    rw [hs] at hk
    injection hk with hk
    subst hk
    rw [show normKey [kstr "Unary", KElem.v (PyVal.str o), keyElemOf (some ke)] =
      [kstr "Unary", KElem.v (PyVal.str o), KElem.sub (normKey ke)] from by
      simp [normKey, normElem, normElem_kstr, keyElemOf, normVal, PyVal.toC]]
    rw [decode_unary, ih ke hs]
    simp [canon]
  | op o l r hnl hnr ihl ihr =>
    intro k hk
    simp only [literal_hash] at hk
    rcases hsl : literal_hash l with _ | kl
    · have := nice_hash_isSome l hnl
      rw [hsl] at this
      cases this
    rcases hsr : literal_hash r with _ | kr
    · have := nice_hash_isSome r hnr
      rw [hsr] at this
      cases this
    rw [hsl, hsr] at hk
    injection hk with hk
    subst hk
    rw [show normKey [kstr "Binary", KElem.v (PyVal.str o), keyElemOf (some kl),
        keyElemOf (some kr)] =
      [kstr "Binary", KElem.v (PyVal.str o), KElem.sub (normKey kl),
        KElem.sub (normKey kr)] from by
      simp [normKey, normElem, normElem_kstr, keyElemOf, normVal, PyVal.toC]]
    rw [decode_binary, ihl kl hsl, ihr kr hsr]
    simp [canon]
  | comparison ops operands hn ih =>
    intro k hk
    simp only [literal_hash] at hk
    injection hk with hk
    subst hk
    rcases seq_decode_aux operands hn ih with ⟨ks, hks, hdec⟩
    rw [show normKey (kstr "Comparison" ::
        (ops.map (fun o => KElem.v (PyVal.str o)) ++ hashItems operands)) =
      kstr "Comparison" :: (ops.map (fun o => KElem.v (PyVal.str o)) ++
        (hashItems operands).map normElem) from by
      rw [normKey_eq_map]
      simp only [List.map_cons, List.map_append, normElem_kstr, List.cons.injEq, true_and]
      congr 1
      rw [List.map_map]
      apply List.map_congr_left
      intro s _
      simp [normElem, normVal, PyVal.toC, Function.comp]]
    rw [hks, decode_comparison, hdec]
    rw [show canon (.comparisonE ops operands) = .comparisonE ops (canonList operands) from by
      simp [canon]]
    rfl
  | index b i hnb hni hyi ihb ihi =>
    intro k hk
    rw [hash_indexE, if_pos hyi] at hk
    rcases hsb : literal_hash b with _ | kb
    · have := nice_hash_isSome b hnb
      rw [hsb] at this
      cases this
    rcases hsi : literal_hash i with _ | ki
    · have := nice_hash_isSome i hni
      rw [hsi] at this
      cases this
    rw [hsb, hsi] at hk
    injection hk with hk
    subst hk
    rw [show normKey [kstr "Index", keyElemOf (some kb), keyElemOf (some ki)] =
      [kstr "Index", KElem.sub (normKey kb), KElem.sub (normKey ki)] from by
      simp [normKey, normElem, normElem_kstr, keyElemOf]]
    rw [decode_index, ihb kb hsb, ihi ki hsi]
    simp [canon]
  | list items hn hy ih =>
    intro k hk
    have hay : allYes items = true := (allYes_iff items).mpr hy
    simp only [literal_hash, seq_expr, hay, if_true] at hk
    injection hk with hk
    subst hk
    rcases seq_decode_aux items hn ih with ⟨ks, hks, hdec⟩
    rw [show normKey (kstr "List" :: hashItems items) =
      kstr "List" :: (hashItems items).map normElem from by
      rw [normKey_eq_map]
      simp [normElem_kstr]]
    rw [hks, decode_seq "List" (Or.inl rfl), hdec]
    rw [show canon (.listE items) = .listE (canonList items) from by simp [canon]]
    rfl
  | tuple items hn hy ih =>
    intro k hk
    have hay : allYes items = true := (allYes_iff items).mpr hy
    simp only [literal_hash, seq_expr, hay, if_true] at hk
    injection hk with hk
    subst hk
    rcases seq_decode_aux items hn ih with ⟨ks, hks, hdec⟩
    rw [show normKey (kstr "Tuple" :: hashItems items) =
      kstr "Tuple" :: (hashItems items).map normElem from by
      rw [normKey_eq_map]
      simp [normElem_kstr]]
    rw [hks, decode_seq "Tuple" (Or.inr (Or.inl rfl)), hdec]
    rw [show canon (.tupleE items) = .tupleE (canonList items) from by simp [canon]]
    rfl
  | set items hn hy ih =>
    intro k hk
    have hay : allYes items = true := (allYes_iff items).mpr hy
    simp only [literal_hash, seq_expr, hay, if_true] at hk
    injection hk with hk
    subst hk
    rcases seq_decode_aux items hn ih with ⟨ks, hks, hdec⟩
    rw [show normKey (kstr "Set" :: hashItems items) =
      kstr "Set" :: (hashItems items).map normElem from by
      rw [normKey_eq_map]
      simp [normElem_kstr]]
    rw [hks, decode_seq "Set" (Or.inr (Or.inr rfl)), hdec]
    rw [show canon (.setE items) = .setE (canonList items) from by simp [canon]]
    rfl
  | dict items hnk hnv hg ihk ihv =>
    intro k hk
    have hdg : dictGuard items = true := (dictGuard_iff items).mpr hg
    simp only [literal_hash, hdg, if_true] at hk
    injection hk with hk
    subst hk
    rcases dict_decode_aux items hg hnk hnv ihk ihv with ⟨pl, hpl, hdec⟩
    rw [show normKey (kstr "Dict" :: dictItems items) =
      kstr "Dict" :: (dictItems items).map normElem from by
      rw [normKey_eq_map]
      simp [normElem_kstr]]
    rw [hpl, decode_dict]
    rcases hoa : optionAll (decodeList (pl.foldr (fun p acc => p.1 :: p.2 :: acc) []))
      with _ | es
    · rw [hoa] at hdec
      cases hdec
    · rw [hoa] at hdec
      simp only [Option.map_some', Option.some.injEq] at hdec
      rw [hoa]
      simp only [Option.map_some', Option.some.injEq]
      rw [hdec, show canon (.dictE items) = .dictE (canonPairs items) from by simp [canon]]



/-- Amended C1: restricted to expressions built from int/str/float/complex
literals, plain variable references, star/member/unary/binary/comparison
composition, `LITERAL_YES`-gated index expressions and collection literals
with `LITERAL_YES` elements (the `Nice` fragment — which excludes bytes
literals, final-constant variable references, walrus expressions and
absent-hashing shapes, each of which shares Keys with other expressions),
`literal_hash` is present, and two expressions have Python-equal Keys iff
they are syntactically identical modulo the recorded identification of
numerically equal constants of different numeric kinds (that is, iff their
scalar-normalizing canonicalizations coincide). -/
theorem key_coincidence_amended (e1 e2 : Expr) (h1 : Nice e1) (h2 : Nice e2) :
    (∃ k1 k2, literal_hash e1 = some k1 ∧ literal_hash e2 = some k2 ∧ keyEq k1 k2 = true) ↔
      canon e1 = canon e2 := by
  constructor
  · rintro ⟨k1, k2, hk1, hk2, heq⟩
    have hn := (keyEq_iff k1 k2).mp heq
    have d1 := decode_hash e1 h1 k1 hk1
    have d2 := decode_hash e2 h2 k2 hk2
    rw [hn, d2] at d1
    injection d1 with d1
    exact d1.symm
  · intro hc
    rcases Option.isSome_iff_exists.mp (nice_hash_isSome e1 h1) with ⟨k1, hk1⟩
    rcases Option.isSome_iff_exists.mp (nice_hash_isSome e2 h2) with ⟨k2, hk2⟩
    refine ⟨k1, k2, hk1, hk2, ?_⟩
    rw [keyEq_iff]
    have hc1 := hash_canon e1 h1
    have hc2 := hash_canon e2 h2
    rw [hk1] at hc1
    rw [hk2] at hc2
    simp only [Option.map_some'] at hc1 hc2
    rw [hc, hc2] at hc1
    injection hc1 with hc1
    exact hc1.symm

/-- Witness for the amended C1: `3` and `3.0` are canonically equal, so
their (present) Keys are Python-equal. -/
theorem key_coincidence_amended_witness :
    ∃ k1 k2, literal_hash (.intE 3) = some k1 ∧ literal_hash (.floatE 3) = some k2 ∧
      keyEq k1 k2 = true :=
  (key_coincidence_amended (.intE 3) (.floatE 3) (Nice.int 3) (Nice.float 3)).mpr
    (by simp [canon])


end MypyLiterals
